import Mathlib

/-
A shallow embedding, in Lean 4, of the transaction-set pipeline of a
federated-byzantine-agreement validator node (stellar-core):

* `src/herder/TxSetFrame.cpp` — canonical sorting / hashing of a transaction
  set (`sortForHash`, `getContentsHash`), the apply-order shuffle
  (`sortForApply`, `ApplyTxSorter`), surge pricing (`surgePricingFilter`,
  `SurgeCompare`), validation (`checkValid`, `checkOrTrim`), and fee
  computations (`getBaseFee`, `getTotalFees`);
* `src/herder/TxSetUtils.cpp` — `AccountTransactionQueue`;
* `src/transactions/FeeBumpTransactionFrame.cpp` — fee computation and
  validation of fee-bump envelopes (`getFee`, `commonValidPreSeqNum`,
  `processFeeSeqNum`);
* `src/transactions/InvokeHostFunctionOpFrame.cpp` — footprint gathering in
  `doApply` with state-expiration handling.

Modelling conventions:
* machine integers become `Nat` / `Int` (bounds such as `INT64_MAX` appear
  explicitly where the source saturates on them);
* a 32-byte `Hash` compared lexicographically becomes a `Nat` compared with
  `<` (lexicographic order on fixed-width big-endian bytes is numeric order),
  and hashing a byte stream becomes an abstract function `List Nat → Nat`
  passed as a parameter (SHA-256 itself is an external collaborator of the
  repository, not part of its sources);
* `std::sort` with a strict weak comparator `c` is modelled by
  `List.insertionSort r` with `r a b := ¬ c b a` (a correct, deterministic
  refinement of the unspecified tie order of `std::sort`);
* an `unordered_map` iteration order is modelled by an explicit account
  order parameter; theorems quantify over all valid orders.
-/

namespace Stellar

/-- `MAX_OPS_PER_TX` from the source. -/
def MAX_OPS_PER_TX : Nat := 100

/-- `INT64_MAX` as a natural number, used where the source saturates. -/
def INT64_MAX_N : Nat := 2 ^ 63 - 1

/-- The data of one transaction as seen by the TxSet pipeline:
`getSourceID`, `getFeeSourceID`, `getSeqNum`, `getNumOperations`,
`getFeeBid`, `getFullHash` (a 32-byte hash as a `Nat`), and the serialized
envelope bytes (`xdr_to_opaque` of `getEnvelope`). -/
structure Tx where
  source : Nat
  feeSource : Nat
  seqNum : Int
  numOps : Nat
  feeBid : Nat
  fullHash : Nat
  envelope : List Nat
deriving DecidableEq, Repr

/-- `HashTxSorter`: ordering on transactions by full hash (the reflexive
closure `≤` of the strict comparator used by `std::sort`). -/
def hashLeR (a b : Tx) : Prop := a.fullHash ≤ b.fullHash

instance : DecidableRel hashLeR := fun a b => Nat.decLe a.fullHash b.fullHash

instance : IsTotal Tx hashLeR := ⟨fun a b => Nat.le_total a.fullHash b.fullHash⟩

instance : IsTrans Tx hashLeR := ⟨fun _ _ _ h₁ h₂ => Nat.le_trans h₁ h₂⟩

/-- `SeqSorter`: ordering on transactions by sequence number. -/
def seqLeR (a b : Tx) : Prop := a.seqNum ≤ b.seqNum

instance : DecidableRel seqLeR := fun a b => Int.decLe a.seqNum b.seqNum

instance : IsTotal Tx seqLeR := ⟨fun a b => Int.le_total a.seqNum b.seqNum⟩

instance : IsTrans Tx seqLeR := ⟨fun _ _ _ h₁ h₂ => Int.le_trans h₁ h₂⟩

/-- `TxSetFrame::sortForHash`: sort the transaction list by full hash. -/
def sortForHash (txs : List Tx) : List Tx := List.insertionSort hashLeR txs

/-- `TxSetFrame::getContentsHash`: SHA-256 of the previous ledger hash
followed by the serialized envelopes of the hash-sorted transactions.
`sha256F` abstracts the incremental SHA-256 hasher (hashing the
concatenation of everything `add`ed). -/
def getContentsHash (sha256F : List Nat → Nat) (prevLedgerHash : List Nat)
    (txs : List Tx) : Nat :=
  sha256F (prevLedgerHash ++ (sortForHash txs).flatMap Tx.envelope)

/-- Two sorted lists that are permutations of each other and whose elements
the order separates (local antisymmetry) are equal. -/
theorem sorted_perm_eq {α : Type _} {r : α → α → Prop} {l₁ l₂ : List α}
    (hp : l₁.Perm l₂) (hs₁ : List.Sorted r l₁) (hs₂ : List.Sorted r l₂)
    (ha : ∀ a ∈ l₁, ∀ b ∈ l₁, r a b → r b a → a = b) : l₁ = l₂ := by
  induction l₁ generalizing l₂ with
  | nil => exact hp.nil_eq
  | cons a t₁ ih =>
    cases l₂ with
    | nil => exact absurd hp (by simp)
    | cons b t₂ =>
      have hab : a = b := by
        by_contra hne
        have hamem : a ∈ b :: t₂ := hp.mem_iff.mp (List.mem_cons_self a t₁)
        have hbmem : b ∈ a :: t₁ := hp.mem_iff.mpr (List.mem_cons_self b t₂)
        have ha2 : a ∈ t₂ := by
          rcases List.mem_cons.mp hamem with h | h
          · exact absurd h hne
          · exact h
        have hb1 : b ∈ t₁ := by
          rcases List.mem_cons.mp hbmem with h | h
          · exact absurd h.symm hne
          · exact h
        have hrba : r b a := (List.sorted_cons.mp hs₂).1 a ha2
        have hrab : r a b := (List.sorted_cons.mp hs₁).1 b hb1
        exact hne (ha a (List.mem_cons_self a t₁) b (List.mem_cons_of_mem a hb1) hrab hrba)
      subst hab
      have hp' : t₁.Perm t₂ := hp.cons_inv
      have := ih hp' (List.sorted_cons.mp hs₁).2 (List.sorted_cons.mp hs₂).2
        (fun x hx y hy => ha x (List.mem_cons_of_mem a hx) y (List.mem_cons_of_mem a hy))
      rw [this]

/-- Claim C1: for any TxSet, the contents hash is a pure function of the
pair (previousLedgerHash, multiset of transaction envelopes) — permutations
of the same transactions hash identically — and it equals SHA-256 of the
previous ledger hash followed by the envelopes serialized in ascending
full-hash order.  Full-hash injectivity on the set (SHA-256
collision-freedom) is assumed. -/
theorem txset_contentsHash_canonical (sha256F : List Nat → Nat) (prev : List Nat)
    (txs₁ txs₂ : List Tx) (hperm : txs₁.Perm txs₂)
    (hinj : ∀ a ∈ txs₁, ∀ b ∈ txs₁, a.fullHash = b.fullHash → a = b) :
    getContentsHash sha256F prev txs₁ = getContentsHash sha256F prev txs₂
      ∧ getContentsHash sha256F prev txs₁
          = sha256F (prev ++ (sortForHash txs₁).flatMap Tx.envelope)
      ∧ List.Sorted hashLeR (sortForHash txs₁)
      ∧ (sortForHash txs₁).Perm txs₁ := by
  have hperm₁ : (sortForHash txs₁).Perm txs₁ := List.perm_insertionSort hashLeR txs₁
  have hperm₂ : (sortForHash txs₂).Perm txs₂ := List.perm_insertionSort hashLeR txs₂
  have hsorted₁ : List.Sorted hashLeR (sortForHash txs₁) :=
    List.sorted_insertionSort hashLeR txs₁
  have hsorted₂ : List.Sorted hashLeR (sortForHash txs₂) :=
    List.sorted_insertionSort hashLeR txs₂
  have hsort : sortForHash txs₁ = sortForHash txs₂ := by
    refine sorted_perm_eq (hperm₁.trans (hperm.trans hperm₂.symm)) hsorted₁ hsorted₂ ?_
    intro a haMem b hbMem hab hba
    exact hinj a (hperm₁.mem_iff.mp haMem) b (hperm₁.mem_iff.mp hbMem)
      (Nat.le_antisymm hab hba)
  refine ⟨?_, rfl, hsorted₁, hperm₁⟩
  unfold getContentsHash
  rw [hsort]

/-- A concrete transaction for witnesses. -/
def txW1 : Tx :=
  { source := 1, feeSource := 1, seqNum := 1, numOps := 1, feeBid := 10,
    fullHash := 9, envelope := [1, 2] }

/-- A second concrete transaction for witnesses. -/
def txW2 : Tx :=
  { source := 2, feeSource := 2, seqNum := 3, numOps := 2, feeBid := 25,
    fullHash := 5, envelope := [3] }

/-- Witness for claim C1 at a concrete input. -/
theorem txset_contentsHash_canonical_witness :
    (([txW1, txW2] : List Tx).Perm [txW2, txW1]
      ∧ (∀ a ∈ [txW1, txW2], ∀ b ∈ [txW1, txW2], a.fullHash = b.fullHash → a = b))
    ∧ (getContentsHash (fun l => l.length) [0] [txW1, txW2]
          = getContentsHash (fun l => l.length) [0] [txW2, txW1]
        ∧ getContentsHash (fun l => l.length) [0] [txW1, txW2]
            = (fun l : List Nat => l.length) ([0] ++ (sortForHash [txW1, txW2]).flatMap Tx.envelope)
        ∧ List.Sorted hashLeR (sortForHash [txW1, txW2])
        ∧ (sortForHash [txW1, txW2]).Perm [txW1, txW2]) :=
  ⟨⟨by decide, by decide⟩,
    txset_contentsHash_canonical (fun l => l.length) [0] [txW1, txW2] [txW2, txW1]
      (by decide) (by decide)⟩

/-- `TxSetFrame::sizeOp`: total operation count of a transaction list. -/
def sizeOp (txs : List Tx) : Nat := (txs.map Tx.numOps).sum

/-- `AccountTransactionQueue` from `TxSetUtils.cpp`: the transactions of one
account with a cached operation count. -/
structure AccountTransactionQueue where
  mTxs : List Tx
  mNumOperations : Nat
deriving DecidableEq, Repr

/-- The `AccountTransactionQueue` constructor: copy the account's
transactions, sort them by sequence number, and accumulate the operation
counts (the field starts at zero per its in-class initializer). -/
def mkAccountTransactionQueue (accountTxs : List Tx) : AccountTransactionQueue :=
  { mTxs := List.insertionSort seqLeR accountTxs
    mNumOperations := (accountTxs.map Tx.numOps).sum }

/-- `AccountTransactionQueue::popTopTx`: subtract the front transaction's
operation count and pop it.  The source `releaseAssert`s non-emptiness; the
empty case (unreachable) is modelled as a no-op. -/
def AccountTransactionQueue.popTopTx (q : AccountTransactionQueue) :
    AccountTransactionQueue :=
  match q.mTxs with
  | [] => q
  | t :: rest => { mTxs := rest, mNumOperations := q.mNumOperations - t.numOps }

/-- The invariant of claim C10: the queue is sorted ascending by sequence
number, and the cached operation count is the sum over the queue. -/
def QueueInv (q : AccountTransactionQueue) : Prop :=
  List.Sorted seqLeR q.mTxs ∧ q.mNumOperations = (q.mTxs.map Tx.numOps).sum

/-- Claim C10: the constructor establishes `QueueInv` for every non-empty
input vector (and yields a non-empty queue), and `popTopTx` preserves it. -/
theorem accountTxQueue_invariant :
    (∀ accountTxs : List Tx, accountTxs ≠ [] →
        QueueInv (mkAccountTransactionQueue accountTxs)
          ∧ (mkAccountTransactionQueue accountTxs).mTxs ≠ [])
    ∧ (∀ q : AccountTransactionQueue, QueueInv q → q.mTxs ≠ [] →
        QueueInv q.popTopTx) := by
  constructor
  · intro accountTxs hne
    have hperm : (List.insertionSort seqLeR accountTxs).Perm accountTxs :=
      List.perm_insertionSort seqLeR accountTxs
    refine ⟨⟨List.sorted_insertionSort seqLeR accountTxs, ?_⟩, ?_⟩
    · exact ((hperm.map Tx.numOps).sum_eq).symm
    · intro h
      exact hne (List.Perm.nil_eq (h ▸ hperm)).symm
  · intro q hinv hne
    match hq : q.mTxs with
    | [] => exact absurd hq hne
    | t :: rest =>
      obtain ⟨hsorted, hsum⟩ := hinv
      rw [hq] at hsorted hsum
      constructor
      · simpa [AccountTransactionQueue.popTopTx, hq] using (List.sorted_cons.mp hsorted).2
      · simp only [AccountTransactionQueue.popTopTx, hq, List.map_cons, List.sum_cons] at hsum ⊢
        omega

/-- Witness for claim C10 at a concrete input. -/
theorem accountTxQueue_invariant_witness :
    QueueInv (mkAccountTransactionQueue [txW1, txW2])
      ∧ QueueInv (mkAccountTransactionQueue [txW1, txW2]).popTopTx :=
  ⟨(accountTxQueue_invariant.1 [txW1, txW2] (by decide)).1,
    accountTxQueue_invariant.2 (mkAccountTransactionQueue [txW1, txW2])
      (accountTxQueue_invariant.1 [txW1, txW2] (by decide)).1
      (accountTxQueue_invariant.1 [txW1, txW2] (by decide)).2⟩

/-- Per-transaction base-fee bid:
`bigDivide(getFeeBid(), 1, getNumOperations(), ROUND_UP)`, i.e. the bid per
operation rounded up (the source asserts a positive divisor). -/
def txBaseFee (tx : Tx) : Nat := (tx.feeBid + tx.numOps - 1) / tx.numOps

/-- The running minimum `lowBaseFee` of `TxSetFrame::getBaseFee`, seeded
with `INT64_MAX`. -/
def lowBaseFeeOf (txs : List Tx) : Nat :=
  txs.foldl (fun acc tx => min acc (txBaseFee tx)) INT64_MAX_N

/-- The ledger-header fields this development uses. -/
structure LedgerHeader where
  ledgerVersion : Nat
  baseFee : Nat
  maxTxSetSize : Nat
  feePool : Int
deriving DecidableEq, Repr

/-- `TxSetFrame::getBaseFee`. -/
def getBaseFee (lh : LedgerHeader) (txs : List Tx) : Nat :=
  if 11 ≤ lh.ledgerVersion then
    let ops := sizeOp txs
    let lowBaseFee := lowBaseFeeOf txs
    let surgeOpsCutoff :=
      if MAX_OPS_PER_TX ≤ lh.maxTxSetSize then lh.maxTxSetSize - MAX_OPS_PER_TX
      else 0
    if surgeOpsCutoff < ops then lowBaseFee else lh.baseFee
  else lh.baseFee

theorem foldl_min_le_init (init : Nat) (l : List Nat) :
    List.foldl min init l ≤ init := by
  induction l generalizing init with
  | nil => exact Nat.le_refl _
  | cons x xs ih =>
    exact Nat.le_trans (ih (min init x)) (Nat.min_le_left _ _)

theorem foldl_min_le_mem (init : Nat) (l : List Nat) :
    ∀ x ∈ l, List.foldl min init l ≤ x := by
  induction l generalizing init with
  | nil => intro x hx; cases hx
  | cons y ys ih =>
    intro x hx
    rcases List.mem_cons.mp hx with h | h
    · subst h
      exact Nat.le_trans (foldl_min_le_init (min init x) ys) (Nat.min_le_right _ _)
    · exact ih (min init y) x h

theorem foldl_min_mem (init : Nat) (l : List Nat) :
    List.foldl min init l ∈ init :: l := by
  induction l generalizing init with
  | nil => simp
  | cons x xs ih =>
    have := ih (min init x)
    rcases List.mem_cons.mp this with h | h
    · rcases Nat.min_eq_left (le_of_eq rfl) with _
      rw [List.foldl_cons, h]
      rcases Nat.le_total init x with hle | hle
      · simp [Nat.min_eq_left hle]
      · simp [Nat.min_eq_right hle]
    · simp [List.foldl_cons, List.mem_cons.mpr (Or.inr (List.mem_cons_of_mem x h))]

/-- A ledger header on protocol version 10 for the C3 counterexample. -/
def lhC3 : LedgerHeader :=
  { ledgerVersion := 10, baseFee := 100, maxTxSetSize := 100, feePool := 0 }

/-- Counterexample to claim C3 as stated: on a ledger with
`ledgerVersion = 10` the total operation count (1) exceeds
`maxTxSetSize − 100 = 0`, yet `getBaseFee` returns `header.baseFee` (100)
and not the lowest per-operation bid (10): the surge branch only exists for
protocol version ≥ 11. -/
theorem getBaseFee_version_cex :
    lhC3.maxTxSetSize - MAX_OPS_PER_TX < sizeOp [txW1]
      ∧ lowBaseFeeOf [txW1] = 10
      ∧ getBaseFee lhC3 [txW1] = 100
      ∧ getBaseFee lhC3 [txW1] ≠ lowBaseFeeOf [txW1] := by
  refine ⟨by decide, ?_, by decide, ?_⟩
  · show min INT64_MAX_N (txBaseFee txW1) = 10
    decide
  · show (100 : Nat) ≠ lowBaseFeeOf [txW1]
    show (100 : Nat) ≠ min INT64_MAX_N (txBaseFee txW1)
    decide

/-- Claim C3 (amended): when `ledgerVersion ≥ 11` and the total operation
count exceeds `maxTxSetSize − 100` (clamped at 0 when `maxTxSetSize < 100`),
`getBaseFee` returns the lowest per-operation bid `⌈feeBid/ops⌉` over the
set's transactions (attained by one of them); otherwise — total ops within
the cutoff, or `ledgerVersion < 11` — it returns `header.baseFee`. -/
theorem getBaseFee_spec (lh : LedgerHeader) (txs : List Tx)
    (hbound : ∀ tx ∈ txs, txBaseFee tx ≤ INT64_MAX_N) :
    (11 ≤ lh.ledgerVersion →
      (((if MAX_OPS_PER_TX ≤ lh.maxTxSetSize then lh.maxTxSetSize - MAX_OPS_PER_TX else 0)
            < sizeOp txs → txs ≠ [] →
          (∃ tx ∈ txs, getBaseFee lh txs = txBaseFee tx)
            ∧ ∀ tx ∈ txs, getBaseFee lh txs ≤ txBaseFee tx)
        ∧ (sizeOp txs
              ≤ (if MAX_OPS_PER_TX ≤ lh.maxTxSetSize then lh.maxTxSetSize - MAX_OPS_PER_TX else 0) →
            getBaseFee lh txs = lh.baseFee)))
    ∧ (lh.ledgerVersion < 11 → getBaseFee lh txs = lh.baseFee) := by
  have hfold : lowBaseFeeOf txs = List.foldl min INT64_MAX_N (txs.map txBaseFee) := by
    unfold lowBaseFeeOf
    rw [List.foldl_map]
  constructor
  · intro hver
    constructor
    · intro hsurge hne
      have hval : getBaseFee lh txs = lowBaseFeeOf txs := by
        unfold getBaseFee
        rw [if_pos hver, if_pos hsurge]
      constructor
      · rcases foldl_min_mem INT64_MAX_N (txs.map txBaseFee) with hmem
        rcases List.mem_cons.mp hmem with htop | hin
        · match txs, hne with
          | t :: rest, _ =>
            refine ⟨t, List.mem_cons_self t rest, ?_⟩
            have h1 : lowBaseFeeOf (t :: rest) ≤ txBaseFee t := by
              rw [hfold]
              exact foldl_min_le_mem _ _ _ (List.mem_map_of_mem txBaseFee (List.mem_cons_self t rest))
            have h2 : txBaseFee t ≤ INT64_MAX_N := hbound t (List.mem_cons_self t rest)
            rw [hval, hfold]
            rw [hfold] at h1
            omega
        · rcases List.mem_map.mp hin with ⟨tx, htx, heq⟩
          exact ⟨tx, htx, by rw [hval, hfold, heq]⟩
      · intro tx htx
        rw [hval, hfold]
        exact foldl_min_le_mem _ _ _ (List.mem_map_of_mem txBaseFee htx)
    · intro hle
      unfold getBaseFee
      rw [if_pos hver, if_neg (by omega)]
  · intro hver
    unfold getBaseFee
    rw [if_neg (by omega)]

/-- Witness for (amended) claim C3 at a concrete input. -/
theorem getBaseFee_spec_witness :
    (∀ tx ∈ [txW1], txBaseFee tx ≤ INT64_MAX_N)
    ∧ ((11 ≤ ({ ledgerVersion := 11, baseFee := 100, maxTxSetSize := 100, feePool := 0 } : LedgerHeader).ledgerVersion →
        (((if MAX_OPS_PER_TX ≤ ({ ledgerVersion := 11, baseFee := 100, maxTxSetSize := 100, feePool := 0 } : LedgerHeader).maxTxSetSize then ({ ledgerVersion := 11, baseFee := 100, maxTxSetSize := 100, feePool := 0 } : LedgerHeader).maxTxSetSize - MAX_OPS_PER_TX else 0)
              < sizeOp [txW1] → [txW1] ≠ [] →
            (∃ tx ∈ [txW1], getBaseFee { ledgerVersion := 11, baseFee := 100, maxTxSetSize := 100, feePool := 0 } [txW1] = txBaseFee tx)
              ∧ ∀ tx ∈ [txW1], getBaseFee { ledgerVersion := 11, baseFee := 100, maxTxSetSize := 100, feePool := 0 } [txW1] ≤ txBaseFee tx)
          ∧ (sizeOp [txW1]
                ≤ (if MAX_OPS_PER_TX ≤ ({ ledgerVersion := 11, baseFee := 100, maxTxSetSize := 100, feePool := 0 } : LedgerHeader).maxTxSetSize then ({ ledgerVersion := 11, baseFee := 100, maxTxSetSize := 100, feePool := 0 } : LedgerHeader).maxTxSetSize - MAX_OPS_PER_TX else 0) →
              getBaseFee { ledgerVersion := 11, baseFee := 100, maxTxSetSize := 100, feePool := 0 } [txW1] = ({ ledgerVersion := 11, baseFee := 100, maxTxSetSize := 100, feePool := 0 } : LedgerHeader).baseFee)))
      ∧ (({ ledgerVersion := 11, baseFee := 100, maxTxSetSize := 100, feePool := 0 } : LedgerHeader).ledgerVersion < 11 →
          getBaseFee { ledgerVersion := 11, baseFee := 100, maxTxSetSize := 100, feePool := 0 } [txW1] = ({ ledgerVersion := 11, baseFee := 100, maxTxSetSize := 100, feePool := 0 } : LedgerHeader).baseFee)) :=
  ⟨by decide,
    getBaseFee_spec { ledgerVersion := 11, baseFee := 100, maxTxSetSize := 100, feePool := 0 } [txW1] (by decide)⟩

/-- The fields of a fee-bump envelope used by
`FeeBumpTransactionFrame`: the outer fee, the inner transaction's full fee,
operation count, Soroban flag, and declared Soroban resource fee. -/
structure FeeBumpTx where
  fee : Int
  innerFee : Int
  innerNumOps : Nat
  innerIsSoroban : Bool
  innerResourceFee : Int
deriving DecidableEq, Repr

/-- `FeeBumpTransactionFrame::getFullFee`. -/
def FeeBumpTx.getFullFee (tx : FeeBumpTx) : Int := tx.fee

/-- `FeeBumpTransactionFrame::declaredSorobanResourceFee` (delegates to the
inner transaction). -/
def FeeBumpTx.declaredResourceFee (tx : FeeBumpTx) : Int := tx.innerResourceFee

/-- `FeeBumpTransactionFrame::getInclusionFee`. -/
def FeeBumpTx.getInclusionFee (tx : FeeBumpTx) : Int :=
  if tx.innerIsSoroban then tx.getFullFee - tx.declaredResourceFee else tx.getFullFee

/-- `FeeBumpTransactionFrame::getNumOperations`: the inner operation count
plus one for the fee bump itself. -/
def FeeBumpTx.getNumOperations (tx : FeeBumpTx) : Nat := tx.innerNumOps + 1

/-- The inner transaction's `getInclusionFee`. -/
def FeeBumpTx.innerInclusionFee (tx : FeeBumpTx) : Int :=
  if tx.innerIsSoroban then tx.innerFee - tx.innerResourceFee else tx.innerFee

/-- `FeeBumpTransactionFrame::getFee`.  The `LedgerHeader` argument of the
source is unused by its body and omitted. -/
def FeeBumpTx.getFee (tx : FeeBumpTx) (baseFee : Option Int) (applying : Bool) : Int :=
  match baseFee with
  | none => tx.getFullFee
  | some bf =>
    let flatFee : Int := if tx.innerIsSoroban then tx.innerResourceFee else 0
    let adjustedFee : Int := bf * max 1 (tx.getNumOperations : Int)
    if applying then flatFee + min tx.getInclusionFee adjustedFee
    else flatFee + adjustedFee

/-- A fee-bump whose inclusion-fee bid (151) is not divisible by its
operation count (2). -/
def fbC4 : FeeBumpTx :=
  { fee := 151, innerFee := 100, innerNumOps := 1, innerIsSoroban := false,
    innerResourceFee := 0 }

/-- Counterexample to claim C4 as stated: with effective base fee 76 (the
round-up of a 151-stroop bid over 2 operations, as `getBaseFee` would
produce) the fee charged at apply time is `min(151, 2·76) = 151`, not
`ops · baseFee = 152`: `getFee` caps the inclusion part at the declared
bid. -/
theorem feeBump_getFee_cex :
    fbC4.getFee (some 76) true = 151
      ∧ (76 : Int) * (fbC4.getNumOperations : Int) = 152
      ∧ fbC4.getFee (some 76) true ≠ 76 * (fbC4.getNumOperations : Int) := by
  refine ⟨by decide, by decide, by decide⟩

/-- Claim C4 (amended): at apply time with a base fee present, the fee
charged is the Soroban resource fee (zero for classic) plus
`min(inclusionFeeBid, ops · baseFee)`; hence it never exceeds the resource
fee plus the declared inclusion-fee bid, and it equals
`resourceFee + ops · baseFee` exactly when `ops · baseFee` does not exceed
the inclusion-fee bid. -/
theorem feeBump_getFee_apply (tx : FeeBumpTx) (bf : Int) :
    tx.getFee (some bf) true
        = (if tx.innerIsSoroban then tx.innerResourceFee else 0)
            + min tx.getInclusionFee (bf * (tx.getNumOperations : Int))
      ∧ tx.getFee (some bf) true
          ≤ (if tx.innerIsSoroban then tx.innerResourceFee else 0) + tx.getInclusionFee
      ∧ (bf * (tx.getNumOperations : Int) ≤ tx.getInclusionFee →
          tx.getFee (some bf) true
            = (if tx.innerIsSoroban then tx.innerResourceFee else 0)
                + bf * (tx.getNumOperations : Int)) := by
  have hmax : max 1 (tx.getNumOperations : Int) = (tx.getNumOperations : Int) := by
    have : (1 : Int) ≤ (tx.getNumOperations : Int) := by
      unfold FeeBumpTx.getNumOperations
      omega
    omega
  have hdef : tx.getFee (some bf) true
      = (if tx.innerIsSoroban then tx.innerResourceFee else 0)
          + min tx.getInclusionFee (bf * (tx.getNumOperations : Int)) := by
    unfold FeeBumpTx.getFee
    rw [hmax]
    simp
  refine ⟨hdef, ?_, ?_⟩
  · rw [hdef]
    have := min_le_left tx.getInclusionFee (bf * (tx.getNumOperations : Int))
    omega
  · intro hle
    rw [hdef, min_eq_right hle]

/-- Witness for (amended) claim C4 at a concrete input. -/
theorem feeBump_getFee_apply_witness :
    fbC4.getFee (some 70) true
        = (if fbC4.innerIsSoroban then fbC4.innerResourceFee else 0)
            + min fbC4.getInclusionFee (70 * (fbC4.getNumOperations : Int))
      ∧ fbC4.getFee (some 70) true
          ≤ (if fbC4.innerIsSoroban then fbC4.innerResourceFee else 0) + fbC4.getInclusionFee
      ∧ (70 * (fbC4.getNumOperations : Int) ≤ fbC4.getInclusionFee →
          fbC4.getFee (some 70) true
            = (if fbC4.innerIsSoroban then fbC4.innerResourceFee else 0)
                + 70 * (fbC4.getNumOperations : Int)) :=
  feeBump_getFee_apply fbC4 70

/-- Transaction result codes set by `FeeBumpTransactionFrame`. -/
inductive TxResultCode
  | txNOT_SUPPORTED
  | txINSUFFICIENT_FEE
  | txFEE_BUMP_INNER_FAILED
  | txNO_ACCOUNT
  | txMALFORMED
deriving DecidableEq, Repr

/-- Modelled from the spec: `getMinInclusionFee` lives in
`TransactionFrame.cpp` / `TransactionUtils`, which is not among the sources.
The spec states the admission floor as "inclusion fee per op <
max(header.baseFee, 100) → INSUFFICIENT_FEE", so the minimum inclusion fee
of a transaction with `numOps` operations is that per-operation floor times
`max(1, numOps)`. -/
def getMinInclusionFeeFB (lh : LedgerHeader) (numOps : Nat) : Int :=
  ((max lh.baseFee 100 : Nat) : Int) * ((max 1 numOps : Nat) : Int)

/-- `FeeBumpTransactionFrame::commonValidPreSeqNum`: `none` means the
checks passed, `some c` is the result code set on failure.  The unsigned
128-bit products `v1`, `v2` of `bigMultiply` are exact on `Int` (both
factors are non-negative 64-bit values at that point). -/
def commonValidPreSeqNum (lh : LedgerHeader) (tx : FeeBumpTx)
    (feeSourceExists : Bool) : Option TxResultCode :=
  if lh.ledgerVersion < 13 then some .txNOT_SUPPORTED
  else if tx.getInclusionFee < getMinInclusionFeeFB lh tx.getNumOperations then
    some .txINSUFFICIENT_FEE
  else if tx.innerInclusionFee < 0 then some .txFEE_BUMP_INNER_FAILED
  else
    let v1 := tx.getInclusionFee * getMinInclusionFeeFB lh tx.innerNumOps
    let v2 := tx.innerInclusionFee * getMinInclusionFeeFB lh tx.getNumOperations
    if v1 < v2 then some .txINSUFFICIENT_FEE
    else if feeSourceExists = false then some .txNO_ACCOUNT
    else none

/-- A fee-bump whose per-operation inclusion fee (400/2 = 200) equals the
inner transaction's (200/1 = 200). -/
def fbC5 : FeeBumpTx :=
  { fee := 400, innerFee := 200, innerNumOps := 1, innerIsSoroban := false,
    innerResourceFee := 0 }

/-- A protocol-13 ledger header for the C5 counterexample. -/
def lhC5 : LedgerHeader :=
  { ledgerVersion := 13, baseFee := 100, maxTxSetSize := 1000, feePool := 0 }

/-- Counterexample to claim C5 as stated: a fee-bump whose outer
per-operation inclusion fee equals the inner one (both 200) passes
`commonValidPreSeqNum` — the code only rejects `v1 < v2`, i.e. a strictly
lower outer rate, so equality is accepted rather than failing with
`INSUFFICIENT_FEE`. -/
theorem feeBump_equal_rate_cex :
    fbC5.getInclusionFee * ((max 1 fbC5.innerNumOps : Nat) : Int)
        = fbC5.innerInclusionFee * ((max 1 fbC5.getNumOperations : Nat) : Int)
      ∧ commonValidPreSeqNum lhC5 fbC5 true = none := by
  refine ⟨by decide, by decide⟩

/-- Claim C5 (amended): given the version, minimum-fee and inner-fee checks
pass and the fee source exists, `commonValidPreSeqNum` fails with
`INSUFFICIENT_FEE` if and only if the outer inclusion fee per operation is
strictly less than the inner transaction's (cross-multiplied form); in
particular, when the two per-operation inclusion fees are equal the check
passes. -/
theorem feeBump_insufficient_fee_iff (lh : LedgerHeader) (tx : FeeBumpTx)
    (hver : 13 ≤ lh.ledgerVersion)
    (hmin : getMinInclusionFeeFB lh tx.getNumOperations ≤ tx.getInclusionFee)
    (hinner : 0 ≤ tx.innerInclusionFee) :
    (commonValidPreSeqNum lh tx true = some .txINSUFFICIENT_FEE
      ↔ tx.getInclusionFee * ((max 1 tx.innerNumOps : Nat) : Int)
          < tx.innerInclusionFee * ((max 1 tx.getNumOperations : Nat) : Int))
    ∧ (tx.getInclusionFee * ((max 1 tx.innerNumOps : Nat) : Int)
          = tx.innerInclusionFee * ((max 1 tx.getNumOperations : Nat) : Int) →
        commonValidPreSeqNum lh tx true = none) := by
  have hE : (0 : Int) < ((max lh.baseFee 100 : Nat) : Int) := by
    have : (100 : Nat) ≤ max lh.baseFee 100 := Nat.le_max_right _ _
    omega
  have hv : (tx.getInclusionFee * getMinInclusionFeeFB lh tx.innerNumOps
        < tx.innerInclusionFee * getMinInclusionFeeFB lh tx.getNumOperations)
      ↔ tx.getInclusionFee * ((max 1 tx.innerNumOps : Nat) : Int)
          < tx.innerInclusionFee * ((max 1 tx.getNumOperations : Nat) : Int) := by
    unfold getMinInclusionFeeFB
    rw [show tx.getInclusionFee * (((max lh.baseFee 100 : Nat) : Int) * ((max 1 tx.innerNumOps : Nat) : Int))
        = ((max lh.baseFee 100 : Nat) : Int) * (tx.getInclusionFee * ((max 1 tx.innerNumOps : Nat) : Int)) by ring]
    rw [show tx.innerInclusionFee * (((max lh.baseFee 100 : Nat) : Int) * ((max 1 tx.getNumOperations : Nat) : Int))
        = ((max lh.baseFee 100 : Nat) : Int) * (tx.innerInclusionFee * ((max 1 tx.getNumOperations : Nat) : Int)) by ring]
    exact mul_lt_mul_left hE
  have hunfold : commonValidPreSeqNum lh tx true
      = if tx.getInclusionFee * getMinInclusionFeeFB lh tx.innerNumOps
            < tx.innerInclusionFee * getMinInclusionFeeFB lh tx.getNumOperations
        then some .txINSUFFICIENT_FEE else none := by
    unfold commonValidPreSeqNum
    rw [if_neg (by omega), if_neg (by omega), if_neg (by omega)]
    by_cases hlt : tx.getInclusionFee * getMinInclusionFeeFB lh tx.innerNumOps
        < tx.innerInclusionFee * getMinInclusionFeeFB lh tx.getNumOperations
    · simp [hlt]
    · simp [hlt]
  constructor
  · rw [hunfold]
    by_cases hlt : tx.getInclusionFee * getMinInclusionFeeFB lh tx.innerNumOps
        < tx.innerInclusionFee * getMinInclusionFeeFB lh tx.getNumOperations
    · simp only [if_pos hlt]
      exact ⟨fun _ => hv.mp hlt, fun _ => by trivial⟩
    · simp only [if_neg hlt]
      constructor
      · intro h
        exact absurd h (by simp)
      · intro h
        exact absurd (hv.mpr h) hlt
  · intro heq
    rw [hunfold, if_neg]
    intro hlt
    have := hv.mp hlt
    omega

/-- A fee-bump with outer per-operation rate 300 over inner rate 200, for
the C5 witness. -/
def fbW5 : FeeBumpTx :=
  { fee := 600, innerFee := 200, innerNumOps := 1, innerIsSoroban := false,
    innerResourceFee := 0 }

/-- Witness for (amended) claim C5 at a concrete input (outer rate 300,
inner rate 200: the strict inequality is false and the check passes). -/
theorem feeBump_insufficient_fee_iff_witness :
    (13 ≤ lhC5.ledgerVersion
      ∧ getMinInclusionFeeFB lhC5 fbW5.getNumOperations ≤ fbW5.getInclusionFee
      ∧ 0 ≤ fbW5.innerInclusionFee)
    ∧ ((commonValidPreSeqNum lhC5 fbW5 true = some .txINSUFFICIENT_FEE
        ↔ fbW5.getInclusionFee * ((max 1 fbW5.innerNumOps : Nat) : Int)
            < fbW5.innerInclusionFee * ((max 1 fbW5.getNumOperations : Nat) : Int))
      ∧ (fbW5.getInclusionFee * ((max 1 fbW5.innerNumOps : Nat) : Int)
            = fbW5.innerInclusionFee * ((max 1 fbW5.getNumOperations : Nat) : Int) →
          commonValidPreSeqNum lhC5 fbW5 true = none)) :=
  ⟨⟨by decide, by decide, by decide⟩,
    feeBump_insufficient_fee_iff lhC5 fbW5 (by decide) (by decide) (by decide)⟩

/-- `FeeBumpTransactionFrame::processFeeSeqNum` restricted to the values it
touches: the fee-source balance and the header's fee pool.
`createResultPayloadWithFeeCharged` sets `feeCharged := getFee(header,
baseFee, applying := true)`; a positive charge is capped at the account
balance, deducted from it, and added to the fee pool.  Returns
(new balance, new fee pool, recorded feeCharged). -/
def processFeeSeqNum (tx : FeeBumpTx) (baseFee : Option Int)
    (balance feePool : Int) : Int × Int × Int :=
  let fee := tx.getFee baseFee true
  if 0 < fee then
    let fee := min balance fee
    (balance - fee, feePool + fee, fee)
  else (balance, feePool, fee)

/-- Claim C6: with the fee-source account present and a non-negative
balance, a positive `feeCharged` deducts exactly `min(feeCharged, balance)`
from the balance and adds the same amount to the fee pool (so the balance
stays non-negative and the balance decrease equals the fee-pool increase);
a non-positive `feeCharged` changes neither. -/
theorem processFeeSeqNum_spec (tx : FeeBumpTx) (baseFee : Option Int)
    (balance feePool : Int) (hbal : 0 ≤ balance) :
    (0 < tx.getFee baseFee true →
        (processFeeSeqNum tx baseFee balance feePool).1
            = balance - min (tx.getFee baseFee true) balance
          ∧ balance - (processFeeSeqNum tx baseFee balance feePool).1
              = (processFeeSeqNum tx baseFee balance feePool).2.1 - feePool
          ∧ 0 ≤ (processFeeSeqNum tx baseFee balance feePool).1)
      ∧ (tx.getFee baseFee true ≤ 0 →
          (processFeeSeqNum tx baseFee balance feePool).1 = balance
            ∧ (processFeeSeqNum tx baseFee balance feePool).2.1 = feePool) := by
  constructor
  · intro hpos
    simp only [processFeeSeqNum, if_pos hpos]
    refine ⟨by omega, by omega, by omega⟩
  · intro hnonpos
    simp only [processFeeSeqNum, if_neg (by omega : ¬ 0 < tx.getFee baseFee true)]
    exact ⟨by trivial, by trivial⟩

/-- Witness for claim C6 at a concrete input. -/
theorem processFeeSeqNum_spec_witness :
    (0 ≤ (100 : Int))
    ∧ ((0 < fbC4.getFee (some 76) true →
          (processFeeSeqNum fbC4 (some 76) 100 5).1
              = 100 - min (fbC4.getFee (some 76) true) 100
            ∧ 100 - (processFeeSeqNum fbC4 (some 76) 100 5).1
                = (processFeeSeqNum fbC4 (some 76) 100 5).2.1 - 5
            ∧ 0 ≤ (processFeeSeqNum fbC4 (some 76) 100 5).1)
        ∧ (fbC4.getFee (some 76) true ≤ 0 →
            (processFeeSeqNum fbC4 (some 76) 100 5).1 = 100
              ∧ (processFeeSeqNum fbC4 (some 76) 100 5).2.1 = 5)) :=
  ⟨by decide, processFeeSeqNum_spec fbC4 (some 76) 100 5 (by decide)⟩

/-- `lessThanXored` (a crypto helper external to the shown sources): compare
two 256-bit hashes after XOR with a seed; lexicographic byte order on a
fixed width is numeric order on `Nat`. -/
def lessThanXored (x y seed : Nat) : Bool := decide (x ^^^ seed < y ^^^ seed)

/-- `SurgeCompare::operator()`: fee-rate comparison of two account queues by
their front transactions, with a seeded XOR hash tie-break.  `getMinFee` is
not among the sources and stays abstract; `bigMultiply` is exact 128-bit
multiplication of 64-bit values, hence exact on `Nat`.  Null queue pointers
do not arise in the model; an empty queue compares less than a non-empty
one. -/
def surgeCompare (seed : Nat) (minFee : Tx → Nat) (q1 q2 : List Tx) : Bool :=
  match q1, q2 with
  | [], q2 => !q2.isEmpty
  | _ :: _, [] => false
  | t1 :: _, t2 :: _ =>
    let v1 := t1.feeBid * minFee t2
    let v2 := t2.feeBid * minFee t1
    if v1 < v2 then true
    else if v2 < v1 then false
    else lessThanXored t1.fullHash t2.fullHash seed

/-- The distinct source accounts of a transaction list (the key set of the
`unordered_map` built by `buildAccountTxQueues`). -/
def accountsOf (txs : List Tx) : List Nat := (txs.map Tx.source).dedup

/-- One queue of `TxSetFrame::buildAccountTxQueues`: the account's
transactions (in input order), sorted by sequence number. -/
def accountQueue (txs : List Tx) (a : Nat) : List Tx :=
  List.insertionSort seqLeR (txs.filter (fun t => t.source == a))

/-- `TxSetFrame::buildAccountTxQueues`, with the `unordered_map` iteration
order made explicit as an account order parameter. -/
def buildQueues (txs : List Tx) (order : List Nat) : List (List Tx) :=
  order.map (accountQueue txs)

/-- Extraction of the queue at index `i`: a model of `priority_queue::top`
followed by `pop`.  Theorems quantify over the selection index, covering
every possible heap behaviour. -/
def pickOut : List (List Tx) → Nat → Option (List Tx × List (List Tx))
  | [], _ => none
  | q :: rest, 0 => some (q, rest)
  | q :: rest, n + 1 =>
    match pickOut rest n with
    | none => none
    | some (c, others) => some (c, q :: others)

theorem pickOut_perm :
    ∀ (qs : List (List Tx)) (i : Nat) (q : List Tx) (rest : List (List Tx)),
      pickOut qs i = some (q, rest) → qs.Perm (q :: rest) := by
  intro qs
  induction qs with
  | nil => intro i q rest h; cases h
  | cons q0 qs0 ih =>
    intro i q rest h
    cases i with
    | zero =>
      simp only [pickOut, Option.some.injEq, Prod.mk.injEq] at h
      obtain ⟨h1, h2⟩ := h
      subst h1; subst h2
      exact List.Perm.refl _
    | succ n =>
      simp only [pickOut] at h
      cases hrec : pickOut qs0 n with
      | none => rw [hrec] at h; cases h
      | some pr =>
        rw [hrec] at h
        obtain ⟨c, others⟩ := pr
        simp only [Option.some.injEq, Prod.mk.injEq] at h
        obtain ⟨h1, h2⟩ := h
        subst h1; subst h2
        exact ((ih n c others hrec).cons q0).trans (List.Perm.swap c q0 others)

/-- Termination measure for the surge-pricing loop: total number of queued
transactions plus the number of queues. -/
def queuesMeasure (qs : List (List Tx)) : Nat :=
  (qs.map List.length).sum + qs.length

/-- The `while (opsLeft > 0 && !surgeQueue.empty())` loop of
`TxSetFrame::surgePricingFilter`: pop the top queue `cur`; if its front
transaction fits in the remaining budget, accept it, pop it from the queue,
subtract its operation count, and push the queue back if non-empty;
otherwise clear the whole queue.  `pick` abstracts which element the
max-heap surfaces; the pushed-back remainder's position in the list is
irrelevant for the same reason. -/
def surgeLoop (pick : List (List Tx) → Nat) (maxIsOps : Bool)
    (opsLeft : Nat) (qs : List (List Tx)) : List Tx :=
  if opsLeft = 0 then []
  else
    match hpick : pickOut qs (pick qs % qs.length) with
    | none => []
    | some ([], rest) => surgeLoop pick maxIsOps opsLeft rest
    | some (t :: ts, rest) =>
      if (if maxIsOps then t.numOps else MAX_OPS_PER_TX) ≤ opsLeft then
        t :: surgeLoop pick maxIsOps
          (opsLeft - (if maxIsOps then t.numOps else MAX_OPS_PER_TX))
          (if ts = [] then rest else rest ++ [ts])
      else surgeLoop pick maxIsOps opsLeft rest
termination_by queuesMeasure qs
decreasing_by
all_goals
  have hp := pickOut_perm qs (pick qs % qs.length) _ _ hpick
all_goals
  have hsum := (hp.map List.length).sum_eq
all_goals
  have hlen := hp.length_eq
all_goals
  simp only [List.map_cons, List.sum_cons, List.length_cons, List.length_nil,
    List.map_nil, List.sum_nil] at hsum hlen
all_goals
  simp only [queuesMeasure]
all_goals
  first
  | omega
  | (split <;>
      (try simp only [List.map_append, List.sum_append, List.length_append,
        List.map_cons, List.sum_cons, List.map_nil, List.sum_nil,
        List.length_cons, List.length_nil]) <;>
      omega)

/-- `TxSetFrame::surgePricingFilter`: when the current size in operations
exceeds the operation budget, rebuild the transaction list from the surge
loop and re-sort by hash; otherwise leave the set unchanged. -/
def surgePricingFilter (pick : List (List Tx) → Nat) (ledgerVersion : Nat)
    (maxTxSetSizeOps : Nat) (order : List Nat) (txs : List Tx) : List Tx :=
  let maxIsOps := decide (11 ≤ ledgerVersion)
  let curSizeOps := if maxIsOps then sizeOp txs else txs.length * MAX_OPS_PER_TX
  if maxTxSetSizeOps < curSizeOps then
    sortForHash (surgeLoop pick maxIsOps maxTxSetSizeOps (buildQueues txs order))
  else txs

/-- Each queue holds transactions of a single source account. -/
def SrcHomog (qs : List (List Tx)) : Prop :=
  ∀ q ∈ qs, ∀ t₁ ∈ q, ∀ t₂ ∈ q, t₁.source = t₂.source

/-- Distinct queues hold transactions of distinct source accounts. -/
def SrcDisjoint (qs : List (List Tx)) : Prop :=
  qs.Pairwise (fun q₁ q₂ => ∀ t₁ ∈ q₁, ∀ t₂ ∈ q₂, t₁.source ≠ t₂.source)

theorem srcDisjoint_symm :
    Symmetric (fun q₁ q₂ : List Tx => ∀ t₁ ∈ q₁, ∀ t₂ ∈ q₂, t₁.source ≠ t₂.source) := by
  intro x y h t₁ ht₁ t₂ ht₂
  exact fun he => (h t₂ ht₂ t₁ ht₁) he.symm

theorem flatten_eq_of_perm_of_le_one {α : Type _} {L Lp : List (List α)}
    (hperm : L.Perm Lp) (hcount : L.countP (fun l => !l.isEmpty) ≤ 1) :
    L.flatten = Lp.flatten := by
  have hfil : (L.filter (fun l => !l.isEmpty)).Perm (Lp.filter (fun l => !l.isEmpty)) :=
    hperm.filter _
  have hlen : (L.filter (fun l => !l.isEmpty)).length ≤ 1 := by
    rw [← List.countP_eq_length_filter]
    exact hcount
  have heq : L.filter (fun l => !l.isEmpty) = Lp.filter (fun l => !l.isEmpty) := by
    cases hL : L.filter (fun l => !l.isEmpty) with
    | nil =>
      rw [hL] at hfil
      exact hfil.nil_eq
    | cons x xs =>
      rw [hL] at hfil hlen
      simp only [List.length_cons] at hlen
      have hxs : xs = [] := by
        cases xs with
        | nil => rfl
        | cons y ys => simp at hlen
      subst hxs
      have hlb : (Lp.filter (fun l => !l.isEmpty)).length = 1 := by
        simpa using hfil.length_eq.symm
      obtain ⟨z, hz⟩ := List.length_eq_one.mp hlb
      rw [hz] at hfil ⊢
      have hx : x ∈ [z] := hfil.mem_iff.mp (List.mem_cons_self x [])
      simp only [List.mem_singleton] at hx
      rw [hx]
  calc L.flatten = (L.filter (fun l => !l.isEmpty)).flatten :=
        List.flatten_filter_not_isEmpty.symm
    _ = (Lp.filter (fun l => !l.isEmpty)).flatten := by rw [heq]
    _ = Lp.flatten := List.flatten_filter_not_isEmpty

theorem countP_srcFilter_le_one (a : Nat) :
    ∀ (qs : List (List Tx)), SrcDisjoint qs →
      (qs.map (List.filter (fun t => t.source == a))).countP (fun l => !l.isEmpty) ≤ 1 := by
  intro qs
  induction qs with
  | nil => intro _; simp
  | cons q qs0 ih =>
    intro hdisj
    have hhead := (List.pairwise_cons.mp hdisj).1
    have htail := (List.pairwise_cons.mp hdisj).2
    simp only [List.map_cons, List.countP_cons]
    cases hq : (q.filter (fun t => t.source == a)).isEmpty with
    | true =>
      simpa using ih htail
    | false =>
      have hmem : ∃ t ∈ q, t.source = a := by
        cases hfq : q.filter (fun t => t.source == a) with
        | nil => rw [hfq] at hq; simp at hq
        | cons x xs =>
          have hx : x ∈ q.filter (fun t => t.source == a) := by
            rw [hfq]; exact List.mem_cons_self x xs
          have := List.mem_filter.mp hx
          exact ⟨x, this.1, by simpa using this.2⟩
      obtain ⟨t, htq, hta⟩ := hmem
      have hzero : (qs0.map (List.filter (fun t => t.source == a))).countP
          (fun l => !l.isEmpty) = 0 := by
        rw [List.countP_eq_zero]
        intro l hl
        rcases List.mem_map.mp hl with ⟨q', hq', heq⟩
        subst heq
        have hnil : q'.filter (fun t => t.source == a) = [] := by
          rw [List.filter_eq_nil_iff]
          intro u hu hua
          exact (hhead q' hq' t htq u hu) (by simp at hua; omega)
        simp [hnil]
      rw [hzero]
      simp


theorem surgeLoop_eq_zero (pick : List (List Tx) → Nat) (maxIsOps : Bool)
    (qs : List (List Tx)) : surgeLoop pick maxIsOps 0 qs = [] := by
  unfold surgeLoop
  simp

theorem surgeLoop_eq_none (pick : List (List Tx) → Nat) (maxIsOps : Bool)
    (opsLeft : Nat) (qs : List (List Tx)) (h0 : opsLeft ≠ 0)
    (hp : pickOut qs (pick qs % qs.length) = none) :
    surgeLoop pick maxIsOps opsLeft qs = [] := by
  unfold surgeLoop
  rw [if_neg h0]
  split <;> rename_i heq
  · rfl
  · rw [hp] at heq; cases heq
  · rw [hp] at heq; cases heq

theorem surgeLoop_eq_emptyq (pick : List (List Tx) → Nat) (maxIsOps : Bool)
    (opsLeft : Nat) (qs : List (List Tx)) (rest : List (List Tx))
    (h0 : opsLeft ≠ 0)
    (hp : pickOut qs (pick qs % qs.length) = some ([], rest)) :
    surgeLoop pick maxIsOps opsLeft qs = surgeLoop pick maxIsOps opsLeft rest := by
  conv_lhs => unfold surgeLoop
  rw [if_neg h0]
  split <;> rename_i heq
  · rw [hp] at heq; cases heq
  · rw [hp] at heq
    simp only [Option.some.injEq, Prod.mk.injEq] at heq
    rw [heq.2]
  · rw [hp] at heq
    simp at heq

theorem surgeLoop_eq_accept (pick : List (List Tx) → Nat) (maxIsOps : Bool)
    (opsLeft : Nat) (qs : List (List Tx)) (t : Tx) (ts : List Tx)
    (rest : List (List Tx)) (h0 : opsLeft ≠ 0)
    (hp : pickOut qs (pick qs % qs.length) = some (t :: ts, rest))
    (hops : (if maxIsOps then t.numOps else MAX_OPS_PER_TX) ≤ opsLeft) :
    surgeLoop pick maxIsOps opsLeft qs
      = t :: surgeLoop pick maxIsOps
          (opsLeft - (if maxIsOps then t.numOps else MAX_OPS_PER_TX))
          (if ts = [] then rest else rest ++ [ts]) := by
  conv_lhs => unfold surgeLoop
  rw [if_neg h0]
  split <;> rename_i heq
  · rw [hp] at heq; cases heq
  · rw [hp] at heq; simp at heq
  · rw [hp] at heq
    simp only [Option.some.injEq, Prod.mk.injEq, List.cons.injEq] at heq
    obtain ⟨⟨ht, hts⟩, hrest⟩ := heq
    subst ht; subst hts; subst hrest
    rw [if_pos hops]

theorem surgeLoop_eq_reject (pick : List (List Tx) → Nat) (maxIsOps : Bool)
    (opsLeft : Nat) (qs : List (List Tx)) (t : Tx) (ts : List Tx)
    (rest : List (List Tx)) (h0 : opsLeft ≠ 0)
    (hp : pickOut qs (pick qs % qs.length) = some (t :: ts, rest))
    (hops : ¬ (if maxIsOps then t.numOps else MAX_OPS_PER_TX) ≤ opsLeft) :
    surgeLoop pick maxIsOps opsLeft qs = surgeLoop pick maxIsOps opsLeft rest := by
  conv_lhs => unfold surgeLoop
  rw [if_neg h0]
  split <;> rename_i heq
  · rw [hp] at heq; cases heq
  · rw [hp] at heq; simp at heq
  · rw [hp] at heq
    simp only [Option.some.injEq, Prod.mk.injEq, List.cons.injEq] at heq
    obtain ⟨⟨ht, hts⟩, hrest⟩ := heq
    subst ht; subst hts; subst hrest
    rw [if_neg hops]

theorem sizeOp_cons (t : Tx) (l : List Tx) :
    sizeOp (t :: l) = t.numOps + sizeOp l := by
  simp [sizeOp]

theorem surge_loop_ops_le (pick : List (List Tx) → Nat) (opsLeft : Nat)
    (qs : List (List Tx)) :
    sizeOp (surgeLoop pick true opsLeft qs) ≤ opsLeft := by
  induction opsLeft, qs using surgeLoop.induct pick true with
  | case1 qs =>
    rw [surgeLoop_eq_zero]
    simp [sizeOp]
  | case2 opsLeft qs h0 hp =>
    rw [surgeLoop_eq_none pick true opsLeft qs h0 hp]
    simp [sizeOp]
  | case3 opsLeft qs h0 rest hp ih =>
    rw [surgeLoop_eq_emptyq pick true opsLeft qs rest h0 hp]
    exact ih
  | case4 opsLeft qs h0 t ts rest hp hops ih =>
    rw [surgeLoop_eq_accept pick true opsLeft qs t ts rest h0 hp (by simpa using hops)]
    rw [sizeOp_cons]
    simp only [dite_eq_ite, if_true, show (true = true) = True from by simp,
      dite_true] at hops ih ⊢
    omega
  | case5 opsLeft qs h0 t ts rest hp hops ih =>
    rw [surgeLoop_eq_reject pick true opsLeft qs t ts rest h0 hp (by simpa using hops)]
    exact ih

theorem flatten_filter_src_eq (a : Nat) {qs qs' : List (List Tx)}
    (hperm : qs.Perm qs') (hdisj : SrcDisjoint qs) :
    qs.flatten.filter (fun t => t.source == a)
      = qs'.flatten.filter (fun t => t.source == a) := by
  rw [List.filter_flatten, List.filter_flatten]
  exact flatten_eq_of_perm_of_le_one (hperm.map _) (countP_srcFilter_le_one a qs hdisj)

theorem filter_src_flatten_nil (a : Nat) (q : List Tx) (rest : List (List Tx))
    (hd : ∀ q' ∈ rest, ∀ t₁ ∈ q, ∀ t₂ ∈ q', t₁.source ≠ t₂.source)
    (t : Tx) (htq : t ∈ q) (hta : t.source = a) :
    rest.flatten.filter (fun u => u.source == a) = [] := by
  rw [List.filter_eq_nil_iff]
  intro u hu hua
  rcases List.mem_flatten.mp hu with ⟨q', hq', huq'⟩
  refine hd q' hq' t htq u huq' ?_
  simp only [beq_iff_eq] at hua
  omega

theorem surge_loop_prefix (pick : List (List Tx) → Nat) (a : Nat)
    (opsLeft : Nat) (qs : List (List Tx)) :
    SrcHomog qs → SrcDisjoint qs →
      ∃ restOut,
        (surgeLoop pick true opsLeft qs).filter (fun t => t.source == a) ++ restOut
          = qs.flatten.filter (fun t => t.source == a) := by
  induction opsLeft, qs using surgeLoop.induct pick true with
  | case1 qs =>
    intro _ _
    rw [surgeLoop_eq_zero]
    exact ⟨qs.flatten.filter (fun t => t.source == a), by simp⟩
  | case2 opsLeft qs h0 hp =>
    intro _ _
    rw [surgeLoop_eq_none pick true opsLeft qs h0 hp]
    exact ⟨qs.flatten.filter (fun t => t.source == a), by simp⟩
  | case3 opsLeft qs h0 rest hp ih =>
    intro hhom hdisj
    have hperm := pickOut_perm qs _ _ _ hp
    have hhomT : SrcHomog ([] :: rest) :=
      fun q' hq' => hhom q' (hperm.mem_iff.mpr hq')
    have hdisjT : SrcDisjoint ([] :: rest) :=
      ((List.Perm.pairwise_iff (fun h => srcDisjoint_symm h) hperm).mp hdisj)
    rw [surgeLoop_eq_emptyq pick true opsLeft qs rest h0 hp]
    rw [flatten_filter_src_eq a hperm hdisj]
    simp only [List.flatten_cons, List.nil_append]
    exact ih (fun q' hq' => hhomT q' (List.mem_cons_of_mem _ hq'))
      (List.pairwise_cons.mp hdisjT).2
  | case4 opsLeft qs h0 t ts rest hp hops ih =>
    intro hhom hdisj
    have hperm := pickOut_perm qs _ _ _ hp
    have hqmem : (t :: ts) ∈ qs := hperm.mem_iff.mpr (List.mem_cons_self _ _)
    have hqhom := hhom (t :: ts) hqmem
    have hdisjT : SrcDisjoint ((t :: ts) :: rest) :=
      ((List.Perm.pairwise_iff (fun h => srcDisjoint_symm h) hperm).mp hdisj)
    have hdhead := (List.pairwise_cons.mp hdisjT).1
    have hdtail := (List.pairwise_cons.mp hdisjT).2
    have hhomR : SrcHomog rest :=
      fun q' hq' => hhom q' (hperm.mem_iff.mpr (List.mem_cons_of_mem _ hq'))
    have hhomNew : SrcHomog (if ts = [] then rest else rest ++ [ts]) := by
      split
      · exact hhomR
      · intro q' hq'
        rcases List.mem_append.mp hq' with h | h
        · exact hhomR q' h
        · simp only [List.mem_singleton] at h
          subst h
          intro t₁ ht₁ t₂ ht₂
          exact hqhom t₁ (List.mem_cons_of_mem t ht₁) t₂ (List.mem_cons_of_mem t ht₂)
    have hdisjNew : SrcDisjoint (if ts = [] then rest else rest ++ [ts]) := by
      split
      · exact hdtail
      · rw [SrcDisjoint, List.pairwise_append]
        refine ⟨hdtail, List.pairwise_singleton _ _, ?_⟩
        intro x hx y hy t₁ ht₁ t₂ ht₂
        simp only [List.mem_singleton] at hy
        subst hy
        exact fun he => (hdhead x hx t₂ (List.mem_cons_of_mem t ht₂) t₁ ht₁) he.symm
    rw [surgeLoop_eq_accept pick true opsLeft qs t ts rest h0 hp (by simpa using hops)]
    rw [flatten_filter_src_eq a hperm hdisj]
    simp only [List.flatten_cons, List.filter_append]
    simp only [dite_eq_ite, eq_self_iff_true, if_true] at ih ⊢
    rcases ih hhomNew hdisjNew with ⟨r, hr⟩
    by_cases hta : t.source = a
    · have hqfil : (t :: ts).filter (fun u => u.source == a) = t :: ts := by
        rw [List.filter_eq_self]
        intro u hu
        simp only [beq_iff_eq]
        rw [hqhom u hu t (List.mem_cons_self _ _)]
        exact hta
      have hrestnil : rest.flatten.filter (fun u => u.source == a) = [] :=
        filter_src_flatten_nil a (t :: ts) rest hdhead t (List.mem_cons_self _ _) hta
      rw [hqfil, hrestnil, List.append_nil]
      have htfil : (fun u : Tx => u.source == a) t = true := by
        simp only [beq_iff_eq]; omega
      rw [List.filter_cons_of_pos (by simp [htfil])]
      by_cases hts : ts = []
      · rw [if_pos hts] at hr ⊢
        rw [hrestnil] at hr
        have hnil : (surgeLoop pick true (opsLeft - t.numOps)
            rest).filter (fun u => u.source == a) = [] :=
          (List.append_eq_nil.mp hr).1
        refine ⟨[], ?_⟩
        rw [List.append_nil, hnil, hts]
      · rw [if_neg hts] at hr ⊢
        rw [List.flatten_append, List.filter_append] at hr
        rw [hrestnil, List.nil_append] at hr
        have htsfil : ([ts] : List (List Tx)).flatten.filter
            (fun u => u.source == a) = ts := by
          simp only [List.flatten_cons, List.flatten_nil, List.append_nil]
          rw [List.filter_eq_self]
          intro u hu
          simp only [beq_iff_eq]
          rw [hqhom u (List.mem_cons_of_mem t hu) t (List.mem_cons_self _ _)]
          exact hta
        rw [htsfil] at hr
        refine ⟨r, ?_⟩
        rw [List.cons_append, hr]
    · have hqfil : (t :: ts).filter (fun u => u.source == a) = [] := by
        rw [List.filter_eq_nil_iff]
        intro u hu hua
        simp only [beq_iff_eq] at hua
        exact hta (by rw [← hqhom u hu t (List.mem_cons_self _ _)]; exact hua)
      rw [hqfil, List.nil_append]
      have htfil : (fun u : Tx => u.source == a) t = false := by
        simp only [beq_iff_eq]
        simpa using hta
      rw [List.filter_cons_of_neg (by simp [htfil])]
      by_cases hts : ts = []
      · rw [if_pos hts] at hr ⊢
        exact ⟨r, hr⟩
      · rw [if_neg hts] at hr ⊢
        rw [List.flatten_append, List.filter_append] at hr
        have htsfil : ([ts] : List (List Tx)).flatten.filter
            (fun u => u.source == a) = [] := by
          simp only [List.flatten_cons, List.flatten_nil, List.append_nil]
          rw [List.filter_eq_nil_iff]
          intro u hu hua
          simp only [beq_iff_eq] at hua
          exact hta (by rw [← hqhom u (List.mem_cons_of_mem t hu)
            t (List.mem_cons_self _ _)]; exact hua)
        rw [htsfil, List.append_nil] at hr
        exact ⟨r, hr⟩
  | case5 opsLeft qs h0 t ts rest hp hops ih =>
    intro hhom hdisj
    have hperm := pickOut_perm qs _ _ _ hp
    have hqmem : (t :: ts) ∈ qs := hperm.mem_iff.mpr (List.mem_cons_self _ _)
    have hqhom := hhom (t :: ts) hqmem
    have hdisjT : SrcDisjoint ((t :: ts) :: rest) :=
      ((List.Perm.pairwise_iff (fun h => srcDisjoint_symm h) hperm).mp hdisj)
    have hdhead := (List.pairwise_cons.mp hdisjT).1
    have hdtail := (List.pairwise_cons.mp hdisjT).2
    have hhomR : SrcHomog rest :=
      fun q' hq' => hhom q' (hperm.mem_iff.mpr (List.mem_cons_of_mem _ hq'))
    rw [surgeLoop_eq_reject pick true opsLeft qs t ts rest h0 hp (by simpa using hops)]
    rw [flatten_filter_src_eq a hperm hdisj]
    simp only [List.flatten_cons, List.filter_append]
    rcases ih hhomR hdtail with ⟨r, hr⟩
    by_cases hta : t.source = a
    · have hrestnil : rest.flatten.filter (fun u => u.source == a) = [] :=
        filter_src_flatten_nil a (t :: ts) rest hdhead t (List.mem_cons_self _ _) hta
      rw [hrestnil] at hr
      have hout : (surgeLoop pick true opsLeft rest).filter
          (fun u => u.source == a) = [] :=
        (List.append_eq_nil.mp hr).1
      rw [hout, hrestnil, List.append_nil]
      exact ⟨(t :: ts).filter (fun u => u.source == a), by simp⟩
    · have hqfil : (t :: ts).filter (fun u => u.source == a) = [] := by
        rw [List.filter_eq_nil_iff]
        intro u hu hua
        simp only [beq_iff_eq] at hua
        exact hta (by rw [← hqhom u hu t (List.mem_cons_self _ _)]; exact hua)
      rw [hqfil, List.nil_append]
      exact ⟨r, hr⟩

/-- Claim C2: when surge pricing is in effect, the selection loop pops the
top queue from the heap while the remaining operation budget is positive
and the heap is non-empty; a front transaction whose operation count fits
the remaining budget is accepted, popped from its queue, its operations
subtracted from the budget, and the queue re-pushed if non-empty, while a
front transaction that does not fit causes the entire remaining queue to be
cleared.  Proved consequences, for every possible heap behaviour `pick`:
the accepted transactions total at most the budget in operations, and for
every account the accepted transactions form a prefix of that account's
queue — once a queue is cleared, no later transaction of that account is
accepted. -/
theorem surgePricing_loop_spec (pick : List (List Tx) → Nat) (budget : Nat)
    (qs : List (List Tx)) (hhom : SrcHomog qs) (hdisj : SrcDisjoint qs) :
    sizeOp (surgeLoop pick true budget qs) ≤ budget
    ∧ ∀ a : Nat, ∃ restOut,
        (surgeLoop pick true budget qs).filter (fun t => t.source == a) ++ restOut
          = qs.flatten.filter (fun t => t.source == a) :=
  ⟨surge_loop_ops_le pick budget qs,
    fun a => surge_loop_prefix pick a budget qs hhom hdisj⟩

/-- Witness for claim C2 at a concrete input. -/
theorem surgePricing_loop_spec_witness :
    (SrcHomog [[txW1], [txW2]] ∧ SrcDisjoint [[txW1], [txW2]])
    ∧ (sizeOp (surgeLoop (fun _ => 0) true 3 [[txW1], [txW2]]) ≤ 3
        ∧ ∀ a : Nat, ∃ restOut,
            (surgeLoop (fun _ => 0) true 3 [[txW1], [txW2]]).filter
                (fun t => t.source == a) ++ restOut
              = ([[txW1], [txW2]] : List (List Tx)).flatten.filter
                  (fun t => t.source == a)) :=
  ⟨⟨by unfold SrcHomog; decide, by unfold SrcDisjoint; decide⟩,
    surgePricing_loop_spec (fun _ => 0) 3 [[txW1], [txW2]]
      (by unfold SrcHomog; decide) (by unfold SrcDisjoint; decide)⟩

/-- Saturating fee-bid accumulation from the first loop of
`TxSetFrame::checkOrTrim`: `if (INT64_MAX - accFee < tx->getFeeBid())
accFee = INT64_MAX; else accFee += tx->getFeeBid();`. -/
def satAdd (accFee feeBid : Nat) : Nat :=
  if INT64_MAX_N - accFee < feeBid then INT64_MAX_N else accFee + feeBid

/-- The per-account validation walk of `checkOrTrim` in `justCheck` mode:
each transaction of the seq-sorted queue is checked with
`tx->checkValid(ltx, lastSeq)` where `lastSeq` chains through the queue
(0 initially); `txValid` abstracts the per-transaction `checkValid`, which
lives in `TransactionFrame.cpp` (not among the sources). -/
def queueValid (txValid : Tx → Int → Bool) : Int → List Tx → Bool
  | _, [] => true
  | lastSeq, t :: rest => txValid t lastSeq && queueValid txValid t.seqNum rest

/-- The iteration sequence of `checkOrTrim`: accounts in map order, each
account's transactions in sequence-number order. -/
def checkIterSeq (txs : List Tx) : List Tx :=
  (accountsOf txs).flatMap (accountQueue txs)

/-- The `accountFeeMap` entry of fee-source `s` after the first loop of
`checkOrTrim` (all transactions valid): the saturating sum of the fee bids
with that fee source, accumulated in iteration order. -/
def collectedFee (txs : List Tx) (s : Nat) : Nat :=
  (checkIterSeq txs).foldl
    (fun accFee t => if t.feeSource == s then satAdd accFee t.feeBid else accFee) 0

/-- `std::is_sorted` with the full-hash comparator: no adjacent pair is out
of order. -/
def isSortedByHash : List Tx → Bool
  | [] => true
  | [_] => true
  | t₁ :: t₂ :: rest =>
    !(decide (t₂.fullHash < t₁.fullHash)) && isSortedByHash (t₂ :: rest)

/-- The last-closed-ledger data `checkValid` consults. -/
structure LastClosedLedger where
  hash : List Nat
  header : LedgerHeader

/-- `TxSetFrame::size`: operations from protocol 11 on, transaction count
before. -/
def sizeOfSet (lh : LedgerHeader) (txs : List Tx) : Nat :=
  if 11 ≤ lh.ledgerVersion then sizeOp txs else txs.length

/-- `TxSetFrame::checkOrTrim` in `justCheck` mode: every transaction of
every account queue validates (first loop, with the chained `lastSeq` and
the fee map accumulated), and for every transaction the fee-source
account's accumulated bids do not exceed its available balance (second
loop).  `availBal` abstracts `getAvailableBalance(header, feeSource)`. -/
def checkOrTrimCheck (txValid : Tx → Int → Bool) (availBal : Nat → Int)
    (txs : List Tx) : Bool :=
  ((accountsOf txs).all fun a => queueValid txValid 0 (accountQueue txs a)) &&
  ((accountsOf txs).all fun a => (accountQueue txs a).all fun t =>
      !(decide (availBal t.feeSource < (collectedFee txs t.feeSource : Int))))

/-- `TxSetFrame::checkValid`: previous-ledger-hash match, size bound,
hash-sortedness, then `checkOrTrim`. -/
def checkValidTxSet (lcl : LastClosedLedger) (txValid : Tx → Int → Bool)
    (availBal : Nat → Int) (prevLedgerHash : List Nat) (txs : List Tx) : Bool :=
  (lcl.hash == prevLedgerHash) &&
  (decide (sizeOfSet lcl.header txs ≤ lcl.header.maxTxSetSize)) &&
  isSortedByHash txs &&
  checkOrTrimCheck txValid availBal txs

/-- The mathematical (non-saturating) fee-bid sum per fee-source account. -/
def specFeeSum (txs : List Tx) (s : Nat) : Nat :=
  ((txs.filter (fun t => t.feeSource == s)).map Tx.feeBid).sum

theorem forall₂_map_map {α β : Type _} {r : β → β → Prop} (f g : α → β) :
    ∀ (l : List α), (∀ a ∈ l, r (f a) (g a)) →
      List.Forall₂ r (l.map f) (l.map g) := by
  intro l
  induction l with
  | nil => intro _; simp
  | cons x rest ih =>
    intro h
    simp only [List.map_cons]
    exact List.Forall₂.cons (h x (List.mem_cons_self _ _))
      (ih fun a ha => h a (List.mem_cons_of_mem _ ha))

theorem flatten_key_filters_perm {α κ : Type _} [DecidableEq κ] (key : α → κ) :
    ∀ (l : List α) (as : List κ), as.Nodup → (∀ x ∈ l, key x ∈ as) →
      ((as.map (fun a => l.filter (fun y => key y == a))).flatten).Perm l := by
  intro l
  induction l with
  | nil =>
    intro as _ _
    simp
  | cons x rest ih =>
    intro as hnd hcov
    have hstep : ∀ (bs : List κ), bs.Nodup → key x ∈ bs →
        ((bs.map (fun a => (x :: rest).filter (fun y => key y == a))).flatten).Perm
          (x :: (bs.map (fun a => rest.filter (fun y => key y == a))).flatten) := by
      intro bs
      induction bs with
      | nil => intro _ h; cases h
      | cons b bs' ihb =>
        intro hnd' hmem
        have hnd'' := (List.nodup_cons.mp hnd').2
        have hbnotin := (List.nodup_cons.mp hnd').1
        rcases List.mem_cons.mp hmem with hbx | hbx
        · have hfx : (x :: rest).filter (fun y => key y == b)
              = x :: rest.filter (fun y => key y == b) := by
            rw [List.filter_cons_of_pos]
            simp [hbx]
          have hrest_eq : bs'.map (fun a => (x :: rest).filter (fun y => key y == a))
              = bs'.map (fun a => rest.filter (fun y => key y == a)) := by
            apply List.map_congr_left
            intro a ha
            rw [List.filter_cons_of_neg]
            simp only [beq_iff_eq]
            intro hkey
            refine hbnotin ?_
            have hba : b = a := hbx.symm.trans hkey
            rw [hba]
            exact ha
          simp only [List.map_cons, List.flatten_cons, hfx, hrest_eq,
            List.cons_append]
          exact List.Perm.refl _
        · have hbne : ¬ (key x == b) = true := by
            simp only [beq_iff_eq]
            intro hkey
            exact hbnotin (by rw [← hkey]; exact hbx)
          have hfb : (x :: rest).filter (fun y => key y == b)
              = rest.filter (fun y => key y == b) :=
            List.filter_cons_of_neg hbne
          have hrec := ihb hnd'' hbx
          simp only [List.map_cons, List.flatten_cons, hfb]
          exact (List.Perm.append_left _ hrec).trans List.perm_middle
    have hmain := hstep as hnd (hcov x (List.mem_cons_self _ _))
    refine hmain.trans ?_
    exact (ih as hnd (fun y hy => hcov y (List.mem_cons_of_mem _ hy))).cons x

theorem accountQueue_perm_filter (txs : List Tx) (a : Nat) :
    (accountQueue txs a).Perm (txs.filter (fun t => t.source == a)) :=
  List.perm_insertionSort seqLeR _

theorem checkIterSeq_perm (txs : List Tx) : (checkIterSeq txs).Perm txs := by
  unfold checkIterSeq
  rw [List.flatMap_def]
  have h1 : List.Forall₂ (fun x y => List.Perm x y)
      ((accountsOf txs).map (accountQueue txs))
      ((accountsOf txs).map (fun a => txs.filter (fun t => t.source == a))) :=
    forall₂_map_map _ _ _ (fun a _ => accountQueue_perm_filter txs a)
  refine (List.Perm.flatten_congr h1).trans ?_
  unfold accountsOf
  exact flatten_key_filters_perm Tx.source txs _ (List.nodup_dedup _)
    (fun x hx => List.mem_dedup.mpr (List.mem_map_of_mem Tx.source hx))

theorem isSortedByHash_chain :
    ∀ (txs : List Tx), isSortedByHash txs = true ↔ List.Chain' hashLeR txs
  | [] => by simp [isSortedByHash]
  | [_] => by simp [isSortedByHash]
  | t₁ :: t₂ :: rest => by
    rw [List.chain'_cons]
    have hrec := isSortedByHash_chain (t₂ :: rest)
    simp only [isSortedByHash, Bool.and_eq_true, hrec]
    constructor
    · rintro ⟨h1, h2⟩
      refine ⟨?_, h2⟩
      simp only [Bool.not_eq_true', decide_eq_false_iff_not, Nat.not_lt] at h1
      exact h1
    · rintro ⟨h1, h2⟩
      refine ⟨?_, h2⟩
      simp only [Bool.not_eq_true', decide_eq_false_iff_not, Nat.not_lt]
      exact h1

theorem isSortedByHash_iff (txs : List Tx) :
    isSortedByHash txs = true ↔ List.Sorted hashLeR txs := by
  rw [isSortedByHash_chain txs, List.chain'_iff_pairwise]
  rfl

theorem foldl_satAdd_eq (s : Nat) :
    ∀ (l : List Tx) (acc : Nat),
      acc + ((l.filter (fun t => t.feeSource == s)).map Tx.feeBid).sum ≤ INT64_MAX_N →
      l.foldl (fun accFee t => if t.feeSource == s then satAdd accFee t.feeBid else accFee) acc
        = acc + ((l.filter (fun t => t.feeSource == s)).map Tx.feeBid).sum := by
  intro l
  induction l with
  | nil => intro acc _; simp
  | cons t rest ih =>
    intro acc hb
    by_cases hts : (t.feeSource == s) = true
    · rw [List.filter_cons, if_pos hts] at hb
      simp only [List.map_cons, List.sum_cons] at hb
      rw [List.foldl_cons, if_pos hts]
      have hsat : satAdd acc t.feeBid = acc + t.feeBid := by
        unfold satAdd
        rw [if_neg]
        omega
      rw [hsat, List.filter_cons, if_pos hts]
      simp only [List.map_cons, List.sum_cons]
      rw [ih (acc + t.feeBid) (by omega)]
      omega
    · rw [List.foldl_cons, if_neg hts]
      rw [List.filter_cons, if_neg hts] at hb ⊢
      exact ih acc hb

theorem collectedFee_eq_specFeeSum (txs : List Tx) (s : Nat)
    (hb : specFeeSum txs s ≤ INT64_MAX_N) :
    collectedFee txs s = specFeeSum txs s := by
  have hperm := checkIterSeq_perm txs
  have hfil : ((checkIterSeq txs).filter (fun t => t.feeSource == s)).Perm
      (txs.filter (fun t => t.feeSource == s)) := hperm.filter _
  have hsum_eq : (((checkIterSeq txs).filter (fun t => t.feeSource == s)).map Tx.feeBid).sum
      = specFeeSum txs s := by
    unfold specFeeSum
    exact (hfil.map Tx.feeBid).sum_eq
  unfold collectedFee
  rw [foldl_satAdd_eq s (checkIterSeq txs) 0 (by rw [Nat.zero_add, hsum_eq]; exact hb)]
  rw [Nat.zero_add, hsum_eq]

/-- A bulky transaction (5 operations) for the C7 counterexample. -/
def txC7 : Tx :=
  { source := 1, feeSource := 1, seqNum := 1, numOps := 5, feeBid := 10,
    fullHash := 1, envelope := [] }

/-- The last-closed ledger of the C7 counterexample: protocol version 10,
`maxTxSetSize = 2`. -/
def lclC7 : LastClosedLedger :=
  { hash := [7],
    header := { ledgerVersion := 10, baseFee := 100, maxTxSetSize := 2, feePool := 0 } }

/-- Counterexample to claim C7 as stated: on protocol version 10 the size
check compares the transaction count (1 ≤ 2), not operations; a set whose
total operation count (5) exceeds `maxTxSetSize` (2) still passes
`checkValid`, so condition (ii) of the claimed iff is violated. -/
theorem checkValid_ops_cex :
    checkValidTxSet lclC7 (fun _ _ => true) (fun _ => 1000) [7] [txC7] = true
      ∧ ¬ (sizeOp [txC7] ≤ lclC7.header.maxTxSetSize) := by
  refine ⟨by decide, by decide⟩

/-- Claim C7 (amended): `checkValid` returns true iff (i) the set's
previousLedgerHash equals the last-closed-ledger hash, (ii) the set's size
— total operations for `ledgerVersion ≥ 11`, transaction count before —
does not exceed `header.maxTxSetSize`, (iii) the transactions are sorted
ascending by full hash, (iv) every transaction of every account queue
passes per-transaction `checkValid` with the sequence number chained
through the queue, and (v) for every fee-source account the sum of fee bids
over its transactions does not exceed the account's available balance.
The no-overflow hypothesis anchors the saturating `accountFeeMap` sum to
the mathematical sum. -/
theorem checkValid_iff (lcl : LastClosedLedger) (txValid : Tx → Int → Bool)
    (availBal : Nat → Int) (prevLedgerHash : List Nat) (txs : List Tx)
    (hsum : ∀ t ∈ txs, specFeeSum txs t.feeSource ≤ INT64_MAX_N) :
    checkValidTxSet lcl txValid availBal prevLedgerHash txs = true
      ↔ (lcl.hash = prevLedgerHash
          ∧ sizeOfSet lcl.header txs ≤ lcl.header.maxTxSetSize
          ∧ List.Sorted hashLeR txs
          ∧ (∀ a ∈ accountsOf txs, queueValid txValid 0 (accountQueue txs a) = true)
          ∧ (∀ t ∈ txs, ((specFeeSum txs t.feeSource : Nat) : Int) ≤ availBal t.feeSource)) := by
  unfold checkValidTxSet checkOrTrimCheck
  simp only [Bool.and_eq_true, beq_iff_eq, decide_eq_true_eq, List.all_eq_true,
    Bool.not_eq_true', decide_eq_false_iff_not, Int.not_lt, isSortedByHash_iff,
    and_assoc]
  constructor
  · rintro ⟨h1, h2, h3, h4, h5⟩
    refine ⟨h1, h2, h3, h4, ?_⟩
    intro t ht
    have hmem : t ∈ checkIterSeq txs := (checkIterSeq_perm txs).mem_iff.mpr ht
    rcases List.mem_flatMap.mp hmem with ⟨a, ha, htq⟩
    have hcase := h5 a ha t htq
    rwa [collectedFee_eq_specFeeSum txs t.feeSource (hsum t ht)] at hcase
  · rintro ⟨h1, h2, h3, h4, h5⟩
    refine ⟨h1, h2, h3, h4, ?_⟩
    intro a ha t htq
    have ht : t ∈ txs :=
      (checkIterSeq_perm txs).mem_iff.mp (List.mem_flatMap.mpr ⟨a, ha, htq⟩)
    rw [collectedFee_eq_specFeeSum txs t.feeSource (hsum t ht)]
    exact h5 t ht

/-- The last-closed ledger of the C7 witness: protocol version 11. -/
def lclW7 : LastClosedLedger :=
  { hash := [7],
    header := { ledgerVersion := 11, baseFee := 100, maxTxSetSize := 100, feePool := 0 } }

/-- Witness for (amended) claim C7 at a concrete input. -/
theorem checkValid_iff_witness :
    (∀ t ∈ [txW1], specFeeSum [txW1] t.feeSource ≤ INT64_MAX_N)
    ∧ (checkValidTxSet lclW7 (fun _ _ => true) (fun _ => 1000) [7] [txW1] = true
        ↔ (lclW7.hash = [7]
            ∧ sizeOfSet lclW7.header [txW1] ≤ lclW7.header.maxTxSetSize
            ∧ List.Sorted hashLeR [txW1]
            ∧ (∀ a ∈ accountsOf [txW1],
                queueValid (fun _ _ => true) 0 (accountQueue [txW1] a) = true)
            ∧ (∀ t ∈ [txW1],
                ((specFeeSum [txW1] t.feeSource : Nat) : Int) ≤ (fun _ : Nat => (1000 : Int)) t.feeSource))) :=
  ⟨by decide,
    checkValid_iff lclW7 (fun _ _ => true) (fun _ => 1000) [7] [txW1] (by decide)⟩

/-- `ApplyTxSorter::operator()`: the strict comparator of the apply-order
shuffle. -/
def applyTxLess (setHash : Nat) (t₁ t₂ : Tx) : Bool :=
  lessThanXored t₁.fullHash t₂.fullHash setHash

/-- The reflexive closure of `ApplyTxSorter`: `xorLeR s t₁ t₂` iff
`¬ applyTxLess s t₂ t₁`, i.e. comparison of the hashes XORed with the
seed. -/
def xorLeR (setHash : Nat) (t₁ t₂ : Tx) : Prop :=
  t₁.fullHash ^^^ setHash ≤ t₂.fullHash ^^^ setHash

instance (s : Nat) : DecidableRel (xorLeR s) := fun a b =>
  Nat.decLe (a.fullHash ^^^ s) (b.fullHash ^^^ s)

instance (s : Nat) : IsTotal Tx (xorLeR s) :=
  ⟨fun a b => Nat.le_total (a.fullHash ^^^ s) (b.fullHash ^^^ s)⟩

instance (s : Nat) : IsTrans Tx (xorLeR s) :=
  ⟨fun _ _ _ h₁ h₂ => Nat.le_trans h₁ h₂⟩

theorem sum_map_length_filter_nonempty (L : List (List Tx)) :
    ((L.filter (fun l => !l.isEmpty)).map List.length).sum
      = (L.map List.length).sum := by
  induction L with
  | nil => rfl
  | cons l L' ih =>
    rw [List.filter_cons]
    cases l with
    | nil => simpa using ih
    | cons x xs =>
      simp only [List.isEmpty_cons, Bool.not_false, if_pos, List.map_cons,
        List.sum_cons]
      omega

theorem sum_len_tails (qs : List (List Tx)) :
    ((qs.map List.tail).map List.length).sum + qs.countP (fun l => !l.isEmpty)
      = (qs.map List.length).sum := by
  induction qs with
  | nil => rfl
  | cons q qs' ih =>
    cases q with
    | nil =>
      simp only [List.map_cons, List.tail_nil, List.length_nil, List.sum_cons,
        List.countP_cons, List.isEmpty_nil, Bool.not_true]
      simp only [show ((false : Bool) = true) = False from by simp, if_false]
      omega
    | cons x xs =>
      simp only [List.map_cons, List.tail_cons, List.sum_cons, List.countP_cons,
        List.isEmpty_cons, Bool.not_false, List.length_cons]
      simp only [show ((true : Bool) = true) = True from by simp, if_true]
      omega

/-- The batch-peeling loop of `TxSetFrame::sortForApply`: batch `i` holds
the `i`-th transaction of every account queue that still has one; a queue
is erased as soon as it runs empty. -/
def txBatches (qs : List (List Tx)) : List (List Tx) :=
  if qs = [] then []
  else (qs.filterMap List.head?) ::
    txBatches ((qs.map List.tail).filter (fun l => !l.isEmpty))
termination_by (qs.map List.length).sum + qs.length
decreasing_by
  rename_i hqs
  have h1 := sum_map_length_filter_nonempty (qs.map List.tail)
  have h2 := sum_len_tails qs
  have h3 : ((qs.map List.tail).filter (fun l => !l.isEmpty)).length
      ≤ qs.length := by
    calc ((qs.map List.tail).filter (fun l => !l.isEmpty)).length
        ≤ (qs.map List.tail).length := List.length_filter_le _ _
      _ = qs.length := List.length_map _ _
  have hlen : 1 ≤ qs.length := by
    cases qs with
    | nil => exact absurd rfl hqs
    | cons q qs' => simp
  by_cases hc : qs.countP (fun l => !l.isEmpty) = 0
  · have hallnil : ∀ l ∈ qs, l = [] := by
      intro l hl
      have hl2 := List.countP_eq_zero.mp hc l hl
      cases hb : l.isEmpty with
      | true => exact List.isEmpty_iff.mp hb
      | false =>
        rw [hb] at hl2
        simp at hl2
    have hfilnil : (qs.map List.tail).filter (fun l => !l.isEmpty) = [] := by
      rw [List.filter_eq_nil_iff]
      intro l hl
      rcases List.mem_map.mp hl with ⟨q, hq, heq⟩
      rw [hallnil q hq] at heq
      simp [← heq]
    have hsum0 : (qs.map List.length).sum = 0 := by
      rw [List.sum_eq_zero]
      intro x hx
      rcases List.mem_map.mp hx with ⟨q, hq, heq⟩
      rw [hallnil q hq] at heq
      simpa using heq.symm
    rw [hfilnil]
    simp only [List.map_nil, List.sum_nil, List.length_nil]
    omega
  · omega

theorem txBatches_nil : txBatches [] = [] := by
  unfold txBatches
  simp

theorem txBatches_cons (qs : List (List Tx)) (h : qs ≠ []) :
    txBatches qs = (qs.filterMap List.head?) ::
      txBatches ((qs.map List.tail).filter (fun l => !l.isEmpty)) := by
  conv_lhs => unfold txBatches
  rw [if_neg h]

/-- `TxSetFrame::sortForApply`: build the account queues (in the map
iteration order `order`), peel them into batches, sort each batch with
`ApplyTxSorter` seeded by the set's contents hash, and concatenate the
batches. -/
def sortForApply (sha256F : List Nat → Nat) (prevLedgerHash : List Nat)
    (txs : List Tx) (order : List Nat) : List Tx :=
  ((txBatches (buildQueues txs order)).map
    (fun batch =>
      List.insertionSort (xorLeR (getContentsHash sha256F prevLedgerHash txs)) batch)).flatten

theorem heads_tails_perm :
    ∀ (qs : List (List Tx)),
      ((qs.filterMap List.head?) ++ (qs.map List.tail).flatten).Perm qs.flatten := by
  intro qs
  induction qs with
  | nil => simp
  | cons q qs' ih =>
    cases q with
    | nil =>
      simpa using ih
    | cons x xs =>
      simp only [List.filterMap_cons, List.head?_cons, List.map_cons,
        List.tail_cons, List.flatten_cons, List.cons_append]
      refine List.Perm.cons x ?_
      rw [← List.append_assoc]
      refine ((List.perm_append_comm).append_right _).trans ?_
      rw [List.append_assoc]
      exact List.Perm.append_left xs ih

theorem txBatches_flatten_perm :
    ∀ (qs : List (List Tx)), (txBatches qs).flatten.Perm qs.flatten := by
  intro qs
  induction qs using txBatches.induct with
  | case1 => simp [txBatches_nil]
  | case2 qs hqs ih =>
    rw [txBatches_cons qs hqs]
    simp only [List.flatten_cons]
    refine (List.Perm.append_left _ ih).trans ?_
    rw [List.flatten_filter_not_isEmpty]
    exact heads_tails_perm qs

theorem accountQueue_source (txs : List Tx) (a : Nat) :
    ∀ t ∈ accountQueue txs a, t.source = a := by
  intro t ht
  have hmem := (accountQueue_perm_filter txs a).mem_iff.mp ht
  have := (List.mem_filter.mp hmem).2
  simpa using this

theorem buildQueues_homog (txs : List Tx) (order : List Nat) :
    SrcHomog (buildQueues txs order) := by
  intro q hq t₁ ht₁ t₂ ht₂
  rcases List.mem_map.mp hq with ⟨b, _, heq⟩
  subst heq
  rw [accountQueue_source txs b t₁ ht₁, accountQueue_source txs b t₂ ht₂]

theorem buildQueues_disjoint (txs : List Tx) (order : List Nat)
    (hnd : order.Nodup) : SrcDisjoint (buildQueues txs order) := by
  unfold buildQueues SrcDisjoint
  refine List.Pairwise.map _ ?_ hnd
  intro b₁ b₂ hne t₁ ht₁ t₂ ht₂
  rw [accountQueue_source txs b₁ t₁ ht₁, accountQueue_source txs b₂ t₂ ht₂]
  exact hne

theorem buildQueues_nonempty (txs : List Tx) (order : List Nat)
    (hcov : ∀ a ∈ order, a ∈ txs.map Tx.source) :
    ∀ q ∈ buildQueues txs order, q ≠ [] := by
  intro q hq
  rcases List.mem_map.mp hq with ⟨b, hb, heq⟩
  subst heq
  rcases List.mem_map.mp (hcov b hb) with ⟨t, ht, hsrc⟩
  intro hnil
  have htf : t ∈ txs.filter (fun u => u.source == b) :=
    List.mem_filter.mpr ⟨ht, by simp [hsrc]⟩
  have := (accountQueue_perm_filter txs b).mem_iff.mpr htf
  rw [hnil] at this
  cases this

theorem buildQueues_flatten_perm (txs : List Tx) (order : List Nat)
    (hnd : order.Nodup) (hcov : ∀ x ∈ txs, x.source ∈ order) :
    (buildQueues txs order).flatten.Perm txs := by
  unfold buildQueues
  have h1 : List.Forall₂ (fun x y => List.Perm x y)
      (order.map (accountQueue txs))
      (order.map (fun a => txs.filter (fun t => t.source == a))) :=
    forall₂_map_map _ _ _ (fun a _ => accountQueue_perm_filter txs a)
  refine (List.Perm.flatten_congr h1).trans ?_
  exact flatten_key_filters_perm Tx.source txs order hnd hcov

theorem tails_homog (qs : List (List Tx)) (h : SrcHomog qs) :
    SrcHomog ((qs.map List.tail).filter (fun l => !l.isEmpty)) := by
  intro q' hq' t₁ ht₁ t₂ ht₂
  have hm := List.mem_of_mem_filter hq'
  rcases List.mem_map.mp hm with ⟨q, hq, heq⟩
  subst heq
  exact h q hq t₁ (List.mem_of_mem_tail ht₁) t₂ (List.mem_of_mem_tail ht₂)

theorem tails_disjoint (qs : List (List Tx)) (h : SrcDisjoint qs) :
    SrcDisjoint ((qs.map List.tail).filter (fun l => !l.isEmpty)) := by
  refine List.Pairwise.sublist (List.filter_sublist _) ?_
  refine List.Pairwise.map _ ?_ h
  intro q₁ q₂ hr t₁ ht₁ t₂ ht₂
  exact hr t₁ (List.mem_of_mem_tail ht₁) t₂ (List.mem_of_mem_tail ht₂)

theorem filter_heads_nil (a : Nat) (q : List Tx) (qs' : List (List Tx))
    (hd : ∀ q' ∈ qs', ∀ t₁ ∈ q, ∀ t₂ ∈ q', t₁.source ≠ t₂.source)
    (t : Tx) (htq : t ∈ q) (hta : t.source = a) :
    (qs'.filterMap List.head?).filter (fun u => u.source == a) = [] := by
  rw [List.filter_eq_nil_iff]
  intro u hu hua
  rcases List.mem_filterMap.mp hu with ⟨q', hq', hh⟩
  have humem : u ∈ q' := List.mem_of_mem_head? hh
  refine hd q' hq' t htq u humem ?_
  simp only [beq_iff_eq] at hua
  omega

theorem filter_tails_nil (a : Nat) (q : List Tx) (qs' : List (List Tx))
    (hd : ∀ q' ∈ qs', ∀ t₁ ∈ q, ∀ t₂ ∈ q', t₁.source ≠ t₂.source)
    (t : Tx) (htq : t ∈ q) (hta : t.source = a) :
    ((qs'.map List.tail).flatten).filter (fun u => u.source == a) = [] := by
  rw [List.filter_eq_nil_iff]
  intro u hu hua
  rcases List.mem_flatten.mp hu with ⟨l, hl, hul⟩
  rcases List.mem_map.mp hl with ⟨q', hq', heq⟩
  subst heq
  refine hd q' hq' t htq u (List.mem_of_mem_tail hul) ?_
  simp only [beq_iff_eq] at hua
  omega

theorem heads_tails_filter (a : Nat) :
    ∀ (qs : List (List Tx)), SrcHomog qs → SrcDisjoint qs →
      (qs.filterMap List.head?).filter (fun u => u.source == a)
          ++ ((qs.map List.tail).flatten).filter (fun u => u.source == a)
        = qs.flatten.filter (fun u => u.source == a) := by
  intro qs
  induction qs with
  | nil => intro _ _; simp
  | cons q qs' ih =>
    intro hhom hdisj
    have hdhead := (List.pairwise_cons.mp hdisj).1
    have hdtail := (List.pairwise_cons.mp hdisj).2
    have hhom' : SrcHomog qs' := fun q' h => hhom q' (List.mem_cons_of_mem _ h)
    have hqhom := hhom q (List.mem_cons_self _ _)
    cases q with
    | nil =>
      simp only [List.filterMap_cons, List.head?_nil, List.map_cons,
        List.tail_nil, List.flatten_cons, List.nil_append]
      exact ih hhom' hdtail
    | cons x xs =>
      simp only [List.filterMap_cons, List.head?_cons, List.map_cons,
        List.tail_cons, List.flatten_cons, List.filter_append, List.filter_cons]
      by_cases hxa : (x.source == a) = true
      · rw [if_pos hxa]
        have hxa' : x.source = a := by simpa using hxa
        have hheads : (qs'.filterMap List.head?).filter (fun u => u.source == a) = [] :=
          filter_heads_nil a (x :: xs) qs' hdhead x (List.mem_cons_self _ _) hxa'
        have htails : ((qs'.map List.tail).flatten).filter (fun u => u.source == a) = [] :=
          filter_tails_nil a (x :: xs) qs' hdhead x (List.mem_cons_self _ _) hxa'
        have hxs : xs.filter (fun u => u.source == a) = xs := by
          rw [List.filter_eq_self]
          intro u hu
          simp only [beq_iff_eq]
          rw [hqhom u (List.mem_cons_of_mem _ hu) x (List.mem_cons_self _ _)]
          exact hxa'
        have hflat : (qs'.flatten).filter (fun u => u.source == a) = [] := by
          rw [List.filter_eq_nil_iff]
          intro u hu hua
          rcases List.mem_flatten.mp hu with ⟨q', hq', hul⟩
          refine hdhead q' hq' x (List.mem_cons_self _ _) u hul ?_
          simp only [beq_iff_eq] at hua
          omega
        rw [hheads, htails, hxs, hflat]
        simp [hxa']
      · rw [if_neg hxa]
        have hxs : xs.filter (fun u => u.source == a) = [] := by
          rw [List.filter_eq_nil_iff]
          intro u hu hua
          simp only [beq_iff_eq] at hua
          have := hqhom u (List.mem_cons_of_mem _ hu) x (List.mem_cons_self _ _)
          simp only [beq_iff_eq] at hxa
          omega
        rw [hxs, List.nil_append, if_neg hxa, List.nil_append]
        exact ih hhom' hdtail

theorem countP_heads_le_one (a : Nat) :
    ∀ (qs : List (List Tx)), SrcDisjoint qs →
      (qs.filterMap List.head?).countP (fun u => u.source == a) ≤ 1 := by
  intro qs
  induction qs with
  | nil => intro _; simp
  | cons q qs' ih =>
    intro hdisj
    have hdhead := (List.pairwise_cons.mp hdisj).1
    have hdtail := (List.pairwise_cons.mp hdisj).2
    cases q with
    | nil =>
      simp only [List.filterMap_cons, List.head?_nil]
      exact ih hdtail
    | cons x xs =>
      simp only [List.filterMap_cons, List.head?_cons, List.countP_cons]
      by_cases hxa : (x.source == a) = true
      · have hxa' : x.source = a := by simpa using hxa
        have hzero : (qs'.filterMap List.head?).countP (fun u => u.source == a) = 0 := by
          rw [List.countP_eq_zero]
          intro u hu hua
          rcases List.mem_filterMap.mp hu with ⟨q', hq', hh⟩
          refine hdhead q' hq' x (List.mem_cons_self _ _) u
            (List.mem_of_mem_head? hh) ?_
          simp only [beq_iff_eq] at hua
          omega
        rw [hzero, if_pos hxa]
      · rw [if_neg hxa]
        have := ih hdtail
        omega

theorem txBatches_countP_le_one (a : Nat) :
    ∀ (qs : List (List Tx)), SrcHomog qs → SrcDisjoint qs →
      ∀ b ∈ txBatches qs, b.countP (fun u => u.source == a) ≤ 1 := by
  intro qs
  induction qs using txBatches.induct with
  | case1 =>
    intro _ _ b hb
    rw [txBatches_nil] at hb
    cases hb
  | case2 qs hqs ih =>
    intro hhom hdisj b hb
    rw [txBatches_cons qs hqs] at hb
    rcases List.mem_cons.mp hb with hb | hb
    · subst hb
      exact countP_heads_le_one a qs hdisj
    · exact ih (tails_homog qs hhom) (tails_disjoint qs hdisj) b hb

theorem txBatches_filter_flatten (a : Nat) :
    ∀ (qs : List (List Tx)), SrcHomog qs → SrcDisjoint qs →
      ((txBatches qs).map (fun b => b.filter (fun u => u.source == a))).flatten
        = qs.flatten.filter (fun u => u.source == a) := by
  intro qs
  induction qs using txBatches.induct with
  | case1 =>
    intro _ _
    rw [txBatches_nil]
    simp
  | case2 qs hqs ih =>
    intro hhom hdisj
    rw [txBatches_cons qs hqs]
    simp only [List.map_cons, List.flatten_cons]
    rw [ih (tails_homog qs hhom) (tails_disjoint qs hdisj)]
    rw [List.flatten_filter_not_isEmpty]
    exact heads_tails_filter a qs hhom hdisj

theorem perm_eq_of_length_le_one {α : Type _} {l₁ l₂ : List α}
    (hp : l₁.Perm l₂) (hl : l₁.length ≤ 1) : l₁ = l₂ := by
  cases l₁ with
  | nil => exact hp.nil_eq
  | cons x xs =>
    have hxs : xs = [] := by
      cases xs with
      | nil => rfl
      | cons y ys => simp at hl
    subst hxs
    have hl2 : l₂.length = 1 := by simpa using hp.length_eq.symm
    obtain ⟨z, hz⟩ := List.length_eq_one.mp hl2
    subst hz
    have hx : x ∈ [z] := hp.mem_iff.mp (List.mem_cons_self x [])
    simp only [List.mem_singleton] at hx
    rw [hx]

theorem filter_insertionSort_eq (s a : Nat) (b : List Tx)
    (hcount : b.countP (fun u => u.source == a) ≤ 1) :
    (List.insertionSort (xorLeR s) b).filter (fun u => u.source == a)
      = b.filter (fun u => u.source == a) := by
  have hperm : ((List.insertionSort (xorLeR s) b).filter (fun u => u.source == a)).Perm
      (b.filter (fun u => u.source == a)) :=
    (List.perm_insertionSort (xorLeR s) b).filter _
  refine perm_eq_of_length_le_one hperm ?_
  have := hperm.length_eq
  rw [this, ← List.countP_eq_length_filter]
  exact hcount

theorem flatten_order_queues_filter (txs : List Tx) (a : Nat) :
    ∀ (order : List Nat), order.Nodup →
      ((order.map (fun b => (accountQueue txs b).filter (fun u => u.source == a)))).flatten
        = if a ∈ order then accountQueue txs a else [] := by
  intro order
  induction order with
  | nil => intro _; simp
  | cons b order' ih =>
    intro hnd
    have hnd' := (List.nodup_cons.mp hnd).2
    have hbnotin := (List.nodup_cons.mp hnd).1
    simp only [List.map_cons, List.flatten_cons]
    by_cases hba : b = a
    · subst hba
      have hfq : (accountQueue txs b).filter (fun u => u.source == b)
          = accountQueue txs b := by
        rw [List.filter_eq_self]
        intro u hu
        simp only [beq_iff_eq]
        exact accountQueue_source txs b u hu
      have hrest : ((order'.map (fun c => (accountQueue txs c).filter
          (fun u => u.source == b)))).flatten = [] := by
        rw [ih hnd', if_neg hbnotin]
      rw [hfq, hrest, List.append_nil, if_pos (List.mem_cons_self _ _)]
    · have hfq : (accountQueue txs b).filter (fun u => u.source == a) = [] := by
        rw [List.filter_eq_nil_iff]
        intro u hu hua
        simp only [beq_iff_eq] at hua
        exact hba (by rw [← accountQueue_source txs b u hu]; exact hua)
      rw [hfq, List.nil_append, ih hnd']
      by_cases hmem : a ∈ order'
      · rw [if_pos hmem, if_pos (List.mem_cons_of_mem _ hmem)]
      · rw [if_neg hmem, if_neg]
        intro hc
        rcases List.mem_cons.mp hc with h | h
        · exact hba h.symm
        · exact hmem h

theorem sortForApply_filter_eq (sha256F : List Nat → Nat) (prev : List Nat)
    (txs : List Tx) (order : List Nat) (hnd : order.Nodup) (a : Nat) :
    (sortForApply sha256F prev txs order).filter (fun u => u.source == a)
      = if a ∈ order then accountQueue txs a else [] := by
  unfold sortForApply
  rw [List.filter_flatten, List.map_map]
  have hpt : ∀ b ∈ txBatches (buildQueues txs order),
      ((fun l : List Tx => l.filter (fun u => u.source == a))
          ∘ (fun batch => List.insertionSort
              (xorLeR (getContentsHash sha256F prev txs)) batch)) b
        = b.filter (fun u => u.source == a) := by
    intro b hb
    exact filter_insertionSort_eq (getContentsHash sha256F prev txs) a b
      (by
        rw [List.countP_eq_length_filter, ← List.countP_eq_length_filter]
        exact txBatches_countP_le_one a (buildQueues txs order)
          (buildQueues_homog txs order) (buildQueues_disjoint txs order hnd) b hb)
  rw [List.map_congr_left hpt]
  rw [txBatches_filter_flatten a (buildQueues txs order)
    (buildQueues_homog txs order) (buildQueues_disjoint txs order hnd)]
  show ((buildQueues txs order).flatten).filter (fun u => u.source == a)
      = if a ∈ order then accountQueue txs a else []
  unfold buildQueues
  rw [List.filter_flatten, List.map_map]
  have hcomp : ∀ b ∈ order,
      ((fun l : List Tx => l.filter (fun u => u.source == a)) ∘ accountQueue txs) b
        = (accountQueue txs b).filter (fun u => u.source == a) := by
    intro b _
    rfl
  rw [List.map_congr_left hcomp]
  exact flatten_order_queues_filter txs a order hnd

theorem sortForApply_perm (sha256F : List Nat → Nat) (prev : List Nat)
    (txs : List Tx) (order : List Nat) (hnd : order.Nodup)
    (hcov : ∀ x ∈ txs, x.source ∈ order) :
    (sortForApply sha256F prev txs order).Perm txs := by
  unfold sortForApply
  have h1 : List.Forall₂ (fun x y => List.Perm x y)
      ((txBatches (buildQueues txs order)).map
        (fun batch => List.insertionSort
          (xorLeR (getContentsHash sha256F prev txs)) batch))
      ((txBatches (buildQueues txs order)).map id) :=
    forall₂_map_map _ _ _ (fun b _ => List.perm_insertionSort _ b)
  rw [List.map_id] at h1
  refine (List.Perm.flatten_congr h1).trans ?_
  exact (txBatches_flatten_perm _).trans (buildQueues_flatten_perm txs order hnd hcov)

theorem txBatches_perm_pointwise :
    ∀ (qs qs' : List (List Tx)), qs.Perm qs' →
      List.Forall₂ (fun b₁ b₂ => b₁.Perm b₂) (txBatches qs) (txBatches qs') := by
  intro qs
  induction qs using txBatches.induct with
  | case1 =>
    intro qs' hp
    have : qs' = [] := hp.nil_eq.symm
    subst this
    rw [txBatches_nil]
    exact List.Forall₂.nil
  | case2 qs hqs ih =>
    intro qs' hp
    have hqs' : qs' ≠ [] := by
      intro h
      subst h
      exact hqs hp.symm.nil_eq.symm
    rw [txBatches_cons qs hqs, txBatches_cons qs' hqs']
    exact List.Forall₂.cons (hp.filterMap _) (ih _ ((hp.map _).filter _))

theorem flatten_sorted_eq_of_forall₂ (s : Nat) (txs : List Tx)
    (hinj : ∀ x ∈ txs, ∀ y ∈ txs, x.fullHash = y.fullHash → x = y) :
    ∀ {L₁ L₂ : List (List Tx)},
      List.Forall₂ (fun b₁ b₂ => b₁.Perm b₂) L₁ L₂ →
      (∀ b ∈ L₁, ∀ u ∈ b, u ∈ txs) →
      L₁.map (fun b => List.insertionSort (xorLeR s) b)
        = L₂.map (fun b => List.insertionSort (xorLeR s) b) := by
  intro L₁ L₂ hf
  induction hf with
  | nil => intro _; rfl
  | @cons x y L₁' L₂' hxy hrest ihf =>
    intro hmem
    have hxmem : ∀ u ∈ x, u ∈ txs := hmem x (List.mem_cons_self _ _)
    have hsort : List.insertionSort (xorLeR s) x = List.insertionSort (xorLeR s) y := by
      apply sorted_perm_eq
        ((List.perm_insertionSort _ _).trans
          (hxy.trans (List.perm_insertionSort _ _).symm))
        (List.sorted_insertionSort _ _) (List.sorted_insertionSort _ _)
      intro u hu v hv huv hvu
      have hu₁ : u ∈ x := (List.perm_insertionSort _ _).mem_iff.mp hu
      have hv₁ : v ∈ x := (List.perm_insertionSort _ _).mem_iff.mp hv
      have hxor : u.fullHash ^^^ s = v.fullHash ^^^ s := Nat.le_antisymm huv hvu
      have hfh : u.fullHash = v.fullHash := by
        have hcg := congrArg (fun z => z ^^^ s) hxor
        simpa [Nat.xor_cancel_right] using hcg
      exact hinj u (hxmem u hu₁) v (hxmem v hv₁) hfh
    simp only [List.map_cons, hsort]
    rw [ihf (fun b hb => hmem b (List.mem_cons_of_mem _ hb))]

/-- Claim C8: `sortForApply` returns a permutation of the set's
transactions in which each source account's transactions appear in
ascending sequence-number order (the filtered subsequence per account is
exactly its seq-sorted queue); the permutation is built by peeling batches
(batch `i` holds the `i`-th transaction of each account that still has
one), sorting each batch by full hashes XORed with the contents hash, and
concatenating — and the result is independent of the `unordered_map`
iteration order, hence a pure function of the set (given full-hash
distinctness, i.e. SHA-256 collision-freedom). -/
theorem sortForApply_spec (sha256F : List Nat → Nat) (prev : List Nat)
    (txs : List Tx) (order : List Nat)
    (hnd : order.Nodup) (hcov : ∀ a : Nat, a ∈ order ↔ a ∈ txs.map Tx.source)
    (hinj : ∀ x ∈ txs, ∀ y ∈ txs, x.fullHash = y.fullHash → x = y) :
    (sortForApply sha256F prev txs order).Perm txs
    ∧ (∀ a : Nat,
        (sortForApply sha256F prev txs order).filter (fun t => t.source == a)
            = (if a ∈ order then accountQueue txs a else [])
          ∧ List.Sorted seqLeR
              ((sortForApply sha256F prev txs order).filter (fun t => t.source == a)))
    ∧ (∀ order₂ : List Nat, order₂.Nodup →
        (∀ a : Nat, a ∈ order₂ ↔ a ∈ txs.map Tx.source) →
        sortForApply sha256F prev txs order₂ = sortForApply sha256F prev txs order) := by
  refine ⟨?_, ?_, ?_⟩
  · exact sortForApply_perm sha256F prev txs order hnd
      (fun x hx => (hcov x.source).mpr (List.mem_map_of_mem Tx.source hx))
  · intro a
    have hfe := sortForApply_filter_eq sha256F prev txs order hnd a
    refine ⟨hfe, ?_⟩
    rw [hfe]
    by_cases hmem : a ∈ order
    · rw [if_pos hmem]
      exact List.sorted_insertionSort seqLeR _
    · rw [if_neg hmem]
      exact List.sorted_nil
  · intro order₂ hnd₂ hcov₂
    have horder : order₂.Perm order := by
      refine List.perm_of_nodup_nodup_toFinset_eq hnd₂ hnd ?_
      ext b
      simp only [List.mem_toFinset]
      rw [hcov₂ b, hcov b]
    have hq : (buildQueues txs order₂).Perm (buildQueues txs order) := horder.map _
    have hb := txBatches_perm_pointwise _ _ hq
    have hmemb : ∀ b ∈ txBatches (buildQueues txs order₂), ∀ u ∈ b, u ∈ txs := by
      intro b hbm u hu
      have h1 : u ∈ (txBatches (buildQueues txs order₂)).flatten :=
        List.mem_flatten.mpr ⟨b, hbm, hu⟩
      have h2 := (txBatches_flatten_perm (buildQueues txs order₂)).mem_iff.mp h1
      exact (buildQueues_flatten_perm txs order₂ hnd₂
        (fun x hx => (hcov₂ x.source).mpr (List.mem_map_of_mem Tx.source hx))).mem_iff.mp h2
    unfold sortForApply
    rw [flatten_sorted_eq_of_forall₂ (getContentsHash sha256F prev txs) txs hinj hb hmemb]

/-- Witness for claim C8 at a concrete input. -/
theorem sortForApply_spec_witness :
    (([1, 2] : List Nat).Nodup
      ∧ (∀ x ∈ [txW1, txW2], ∀ y ∈ [txW1, txW2], x.fullHash = y.fullHash → x = y))
    ∧ ((sortForApply (fun l => l.length) [0] [txW1, txW2] [1, 2]).Perm [txW1, txW2]
        ∧ (∀ a : Nat,
            (sortForApply (fun l => l.length) [0] [txW1, txW2] [1, 2]).filter
                (fun t => t.source == a)
                = (if a ∈ ([1, 2] : List Nat) then accountQueue [txW1, txW2] a else [])
              ∧ List.Sorted seqLeR
                  ((sortForApply (fun l => l.length) [0] [txW1, txW2] [1, 2]).filter
                    (fun t => t.source == a)))
        ∧ (∀ order₂ : List Nat, order₂.Nodup →
            (∀ a : Nat, a ∈ order₂ ↔ a ∈ ([txW1, txW2] : List Tx).map Tx.source) →
            sortForApply (fun l => l.length) [0] [txW1, txW2] order₂
              = sortForApply (fun l => l.length) [0] [txW1, txW2] [1, 2])) :=
  ⟨⟨by decide, by decide⟩,
    sortForApply_spec (fun l => l.length) [0] [txW1, txW2] [1, 2]
      (by decide) (fun a => Iff.rfl) (by decide)⟩

/-- Result codes of `InvokeHostFunctionOpFrame` used here. -/
inductive HostFnResultCode
  | SUCCESS
  | RESOURCE_LIMIT_EXCEEDED
  | ENTRY_EXPIRED
  | TRAPPED
deriving DecidableEq, Repr

/-- A loaded ledger entry as consumed by footprint gathering: whether it is
a Soroban (contract data / code) entry, its expiration entry's
`expirationLedger` (loaded alongside every Soroban entry —
`releaseAssertOrThrow`s presence), and the serialized sizes of the entry
and expiration buffers. -/
structure LEntry where
  isSoroban : Bool
  expirationLedger : Nat
  leSize : Nat
  expSize : Nat
deriving DecidableEq, Repr

/-- A footprint key together with what `ltx.loadWithoutRecord` returns for
it (the shallow embedding bakes the read-only ledger view into the key
record); `isTemporary` is `isTemporaryEntry(lk)`. -/
structure FpKey where
  keySize : Nat
  isTemporary : Bool
  entry : Option LEntry
deriving DecidableEq, Repr

/-- Modelled from the spec: `isLive` (defined in ledger utilities that are
not among the sources) — the spec treats an entry as expired exactly when
its `expirationLedger < currentLedgerSeq`, so it is live iff
`currentLedgerSeq ≤ expirationLedger`. -/
def isLive (expirationLedger ledgerSeq : Nat) : Bool :=
  decide (ledgerSeq ≤ expirationLedger)

/-- The `addReads` lambda of `InvokeHostFunctionOpFrame::doApply`,
carrying `metrics.mLedgerReadByte` and the accumulated entry buffers
(modelled as the loaded entries): for each key, load without record; for a
Soroban entry check liveness (expired temporary → treat the key as absent,
expired persistent → `ENTRY_EXPIRED` immediately); otherwise append the
entry buffer (its size plus the expiration buffer's for Soroban entries);
then accumulate the entry size into the read bytes and fail with
`RESOURCE_LIMIT_EXCEEDED` once they exceed `resources.readBytes` (absent
or skipped keys contribute an entry size of 0). -/
def addReads (ledgerSeq readBytesDeclared : Nat) :
    List FpKey → Nat → List LEntry → Except HostFnResultCode (Nat × List LEntry)
  | [], readByte, bufs => .ok (readByte, bufs)
  | k :: rest, readByte, bufs =>
    match k.entry with
    | some le =>
      if le.isSoroban && !(isLive le.expirationLedger ledgerSeq) then
        if k.isTemporary then
          if readBytesDeclared < readByte then .error .RESOURCE_LIMIT_EXCEEDED
          else addReads ledgerSeq readBytesDeclared rest readByte bufs
        else .error .ENTRY_EXPIRED
      else
        if readBytesDeclared < readByte + (le.leSize + (if le.isSoroban then le.expSize else 0))
        then .error .RESOURCE_LIMIT_EXCEEDED
        else addReads ledgerSeq readBytesDeclared rest
          (readByte + (le.leSize + (if le.isSoroban then le.expSize else 0)))
          (bufs ++ [le])
    | none =>
      if readBytesDeclared < readByte then .error .RESOURCE_LIMIT_EXCEEDED
      else addReads ledgerSeq readBytesDeclared rest readByte bufs

/-- The footprint gathering of `doApply`: `addReads(footprint.readOnly)`
then `addReads(footprint.readWrite)`, sharing the metrics and buffers. -/
def gatherFootprint (ledgerSeq readBytesDeclared : Nat) (ro rw : List FpKey) :
    Except HostFnResultCode (Nat × List LEntry) :=
  match addReads ledgerSeq readBytesDeclared ro 0 [] with
  | .error c => .error c
  | .ok (readByte, bufs) => addReads ledgerSeq readBytesDeclared rw readByte bufs

/-- The host invocation output fields consulted by the failure
classification. -/
structure HostOut where
  success : Bool
  cpuInsns : Nat
  memBytes : Nat
deriving DecidableEq, Repr

/-- `InvokeHostFunctionOpFrame::doApply` through the host invocation and
the post-invoke failure classification (the write-back of successful
invocations is beyond the claims treated here): returns the operation's
success flag and result code.  `host` abstracts
`rust_bridge::invoke_host_function` applied to the gathered entry
buffers. -/
def doApplyGather (host : List LEntry → HostOut) (instrLimit memLimit : Nat)
    (ledgerSeq readBytesDeclared : Nat) (ro rw : List FpKey) :
    Bool × HostFnResultCode :=
  match gatherFootprint ledgerSeq readBytesDeclared ro rw with
  | .error c => (false, c)
  | .ok (_, bufs) =>
    let out := host bufs
    if !out.success then
      if instrLimit < out.cpuInsns then (false, .RESOURCE_LIMIT_EXCEEDED)
      else if memLimit < out.memBytes then (false, .RESOURCE_LIMIT_EXCEEDED)
      else (false, .TRAPPED)
    else (true, .SUCCESS)

/-- The entry (if any) that footprint gathering passes to the host for a
key: present, and not an expired Soroban entry. -/
def passedEntry (ledgerSeq : Nat) (k : FpKey) : Option LEntry :=
  match k.entry with
  | some le =>
    if le.isSoroban && !(isLive le.expirationLedger ledgerSeq) then none
    else some le
  | none => none

theorem addReads_ok_bufs (ledgerSeq readBytesDeclared : Nat) :
    ∀ (keys : List FpKey) (readByte : Nat) (bufs : List LEntry)
      (rb' : Nat) (out : List LEntry),
      addReads ledgerSeq readBytesDeclared keys readByte bufs = .ok (rb', out) →
      out = bufs ++ keys.filterMap (passedEntry ledgerSeq) := by
  intro keys
  induction keys with
  | nil =>
    intro readByte bufs rb' out h
    simp only [addReads, Except.ok.injEq, Prod.mk.injEq] at h
    rw [← h.2]
    simp
  | cons k rest ih =>
    intro readByte bufs rb' out h
    rw [List.filterMap_cons]
    cases hke : k.entry with
    | some le =>
      simp only [addReads, hke] at h
      by_cases hexp : (le.isSoroban && !(isLive le.expirationLedger ledgerSeq)) = true
      · rw [if_pos hexp] at h
        by_cases htmp : k.isTemporary = true
        · rw [if_pos htmp] at h
          by_cases hrb : readBytesDeclared < readByte
          · rw [if_pos hrb] at h; cases h
          · rw [if_neg hrb] at h
            have := ih readByte bufs rb' out h
            simp only [passedEntry, hke, if_pos hexp]
            exact this
        · rw [if_neg htmp] at h; cases h
      · rw [if_neg hexp] at h
        by_cases hrb : readBytesDeclared
            < readByte + (le.leSize + (if le.isSoroban then le.expSize else 0))
        · rw [if_pos hrb] at h; cases h
        · rw [if_neg hrb] at h
          have := ih _ _ rb' out h
          simp only [passedEntry, hke, if_neg hexp]
          rw [this, List.append_assoc]
          simp
    | none =>
      simp only [addReads, hke] at h
      by_cases hrb : readBytesDeclared < readByte
      · rw [if_pos hrb] at h; cases h
      · rw [if_neg hrb] at h
        have := ih readByte bufs rb' out h
        simp only [passedEntry, hke]
        exact this

theorem addReads_append (ledgerSeq readBytesDeclared : Nat) :
    ∀ (l₁ l₂ : List FpKey) (readByte : Nat) (bufs : List LEntry),
      addReads ledgerSeq readBytesDeclared (l₁ ++ l₂) readByte bufs
        = match addReads ledgerSeq readBytesDeclared l₁ readByte bufs with
          | .error c => .error c
          | .ok (rb, bs) => addReads ledgerSeq readBytesDeclared l₂ rb bs := by
  intro l₁
  induction l₁ with
  | nil =>
    intro l₂ readByte bufs
    simp [addReads]
  | cons k rest ih =>
    intro l₂ readByte bufs
    cases hke : k.entry with
    | some le =>
      simp only [List.cons_append, addReads, hke]
      by_cases hexp : (le.isSoroban && !(isLive le.expirationLedger ledgerSeq)) = true
      · simp only [if_pos hexp]
        by_cases htmp : k.isTemporary = true
        · simp only [if_pos htmp]
          by_cases hrb : readBytesDeclared < readByte
          · simp only [if_pos hrb]
          · simp only [if_neg hrb]
            exact ih l₂ readByte bufs
        · simp only [if_neg htmp]
      · simp only [if_neg hexp]
        by_cases hrb : readBytesDeclared
            < readByte + (le.leSize + (if le.isSoroban then le.expSize else 0))
        · simp only [if_pos hrb]
        · simp only [if_neg hrb]
          exact ih l₂ _ _
    | none =>
      simp only [List.cons_append, addReads, hke]
      by_cases hrb : readBytesDeclared < readByte
      · simp only [if_pos hrb]
      · simp only [if_neg hrb]
        exact ih l₂ readByte bufs

theorem addReads_cons_expired_persistent (ledgerSeq readBytesDeclared : Nat)
    (k : FpKey) (le : LEntry) (post : List FpKey) (readByte : Nat)
    (bufs : List LEntry) (hke : k.entry = some le) (hsor : le.isSoroban = true)
    (hexp : isLive le.expirationLedger ledgerSeq = false)
    (htmp : k.isTemporary = false) :
    addReads ledgerSeq readBytesDeclared (k :: post) readByte bufs
      = .error .ENTRY_EXPIRED := by
  simp only [addReads, hke]
  rw [if_pos (by rw [hsor, hexp]; rfl), if_neg (by rw [htmp]; simp)]

theorem gatherFootprint_eq_append (ledgerSeq readBytesDeclared : Nat)
    (ro rw : List FpKey) :
    gatherFootprint ledgerSeq readBytesDeclared ro rw
      = addReads ledgerSeq readBytesDeclared (ro ++ rw) 0 [] := by
  rw [addReads_append]
  rfl

/-- Claim C9: during footprint gathering in
`InvokeHostFunctionOpFrame::doApply`, a footprint key whose loaded Soroban
entry has an expiration that is not live at the current ledger sequence is
(a) treated as absent when temporary — the entry is not among the buffers
passed to the host (the gathered buffers are exactly the `passedEntry`
projection of the footprint keys); and (b) when persistent, causes the
operation to fail with `ENTRY_EXPIRED` at that key — provided the keys
before it gathered without failing — with the result code set and the host
never invoked (the outcome is the same for every host function). -/
theorem footprint_expiration_spec (host : List LEntry → HostOut)
    (instrLimit memLimit ledgerSeq readBytesDeclared : Nat)
    (ro rw : List FpKey) (k : FpKey) (le : LEntry)
    (hke : k.entry = some le) (hsor : le.isSoroban = true)
    (hexp : isLive le.expirationLedger ledgerSeq = false) :
    (k.isTemporary = true →
      passedEntry ledgerSeq k = none
        ∧ ∀ rb bufs,
            gatherFootprint ledgerSeq readBytesDeclared ro rw = .ok (rb, bufs) →
            bufs = (ro ++ rw).filterMap (passedEntry ledgerSeq))
    ∧ (k.isTemporary = false →
        ∀ pre post : List FpKey, ro ++ rw = pre ++ k :: post →
          (∃ st, addReads ledgerSeq readBytesDeclared pre 0 [] = Except.ok st) →
          gatherFootprint ledgerSeq readBytesDeclared ro rw
              = .error .ENTRY_EXPIRED
            ∧ doApplyGather host instrLimit memLimit ledgerSeq readBytesDeclared ro rw
                = (false, .ENTRY_EXPIRED)) := by
  constructor
  · intro _
    constructor
    · simp only [passedEntry, hke]
      rw [if_pos (by rw [hsor, hexp]; rfl)]
    · intro rb bufs hok
      rw [gatherFootprint_eq_append] at hok
      have := addReads_ok_bufs ledgerSeq readBytesDeclared (ro ++ rw) 0 [] rb bufs hok
      simpa using this
  · rintro htmp pre post hsplit ⟨st, hst⟩
    obtain ⟨rb₁, bufs₁⟩ := st
    have hgather : gatherFootprint ledgerSeq readBytesDeclared ro rw
        = .error .ENTRY_EXPIRED := by
      rw [gatherFootprint_eq_append, hsplit, addReads_append, hst]
      exact addReads_cons_expired_persistent ledgerSeq readBytesDeclared k le post
        rb₁ bufs₁ hke hsor hexp htmp
    refine ⟨hgather, ?_⟩
    unfold doApplyGather
    rw [hgather]

/-- An expired temporary Soroban entry for the C9 witness. -/
def leW9 : LEntry :=
  { isSoroban := true, expirationLedger := 4, leSize := 3, expSize := 2 }

/-- The footprint key loading `leW9`. -/
def kW9 : FpKey := { keySize := 1, isTemporary := true, entry := some leW9 }

/-- Witness for claim C9 at a concrete input (ledger sequence 5, so the
expiration ledger 4 has passed). -/
theorem footprint_expiration_spec_witness :
    (kW9.entry = some leW9 ∧ leW9.isSoroban = true
      ∧ isLive leW9.expirationLedger 5 = false)
    ∧ ((kW9.isTemporary = true →
          passedEntry 5 kW9 = none
            ∧ ∀ rb bufs,
                gatherFootprint 5 10 [kW9] [] = .ok (rb, bufs) →
                bufs = ([kW9] ++ []).filterMap (passedEntry 5))
        ∧ (kW9.isTemporary = false →
            ∀ pre post : List FpKey, [kW9] ++ [] = pre ++ kW9 :: post →
              (∃ st, addReads 5 10 pre 0 [] = Except.ok st) →
              gatherFootprint 5 10 [kW9] [] = .error .ENTRY_EXPIRED
                ∧ doApplyGather (fun _ => { success := true, cpuInsns := 0, memBytes := 0 })
                    100 100 5 10 [kW9] [] = (false, .ENTRY_EXPIRED))) :=
  ⟨⟨rfl, rfl, by decide⟩,
    footprint_expiration_spec (fun _ => { success := true, cpuInsns := 0, memBytes := 0 })
      100 100 5 10 [kW9] [] kW9 leW9 rfl rfl (by decide)⟩
